import Mathlib

/-!
# MPEG-TS key-frame segmenter (`mpegts.go`): embedding and verification

The Go program reads a transport stream in 188-byte packets, parses the PES
header of every packet that starts a unit on PID 256, scans the enclosed
elementary stream for an IDR NAL unit and cuts the stream into one file per
key frame.

Conventions of the embedding

* a byte (`uint8`) is a `Fin 256`; a slice is a `List Byte` (every slice of the
  program has `len = cap`, so slice bounds are checked against the length);
* a call that may panic or loop is a `Run`: `ret a` for a normal return,
  `panic` for a run-time index or slice-bound fault, `spin` when the allowance
  `fuel` of iterations of the unbounded loop of `parseEs` is used up;
* `log.Printf` / `log.Println` calls have no effect on control flow and are
  left out, together with the frame counter `i` of `Parse`, which only feeds
  a log line;
* the two collaborators of `Parse` are explicit: the reader is the list of
  bytes it will deliver before end of file, the file system is a function
  `sink` telling whether `ioutil.WriteFile` succeeds;
* every statement holds for every allowance `fuel`; a result other than `spin`
  does not change when the allowance grows (`parseEs_fuel_mono`,
  `examine_fuel_mono`, `Parse_fuel_mono`), and `spin` for every allowance is a
  call that never returns.
-/

namespace MpegTS

/-- One `uint8`. -/
abbrev Byte := Fin 256

/-- Constant `MPEGTS_PACKET_SIZE`. -/
def MPEGTS_PACKET_SIZE : Nat := 188

/-- Constant `SYNC_BYTE`. -/
def SYNC_BYTE : Nat := 0x47

/-- Outcome of a call: normal return, run-time panic, or still looping when the
iteration allowance ran out. -/
inductive Run (α : Type) where
  | ret (a : α)
  | panic
  | spin
  deriving DecidableEq, Repr

/-- Sequencing of two calls; a panic or a loop of the first one is final. -/
def Run.bind {α β : Type} (r : Run α) (k : α → Run β) : Run β :=
  match r with
  | .ret a => k a
  | .panic => .panic
  | .spin => .spin

/-- Index expression `s[i]`: panics when `i` is not below `len(s)`. -/
def index (s : List Byte) (i : Nat) : Run Byte :=
  match s[i]? with
  | some b => .ret b
  | none => .panic

/-- Slice expression `s[k:]`: panics when `k` exceeds `len(s)`. -/
def sliceFrom (s : List Byte) (k : Nat) : Run (List Byte) :=
  if k ≤ s.length then .ret (s.drop k) else .panic

/-- Slice expression `s[lo:hi]` with constant `lo ≤ hi`: panics when `hi`
exceeds `len(s)`. -/
def slice (s : List Byte) (lo hi : Nat) : Run (List Byte) :=
  if hi ≤ s.length then .ret ((s.take hi).drop lo) else .panic

/-- Function `binary.BigEndian.Uint16`: bounds check on `b[1]`, then
`uint16(b[1]) | uint16(b[0])<<8`. -/
def Uint16 (b : List Byte) : Run Nat :=
  (index b 1).bind fun b1 =>
  (index b 0).bind fun b0 =>
  .ret (b1.val ||| (b0.val <<< 8))

/-- Function `binary.BigEndian.Uint32`: bounds check on `b[3]`, then
`uint32(b[3]) | uint32(b[2])<<8 | uint32(b[1])<<16 | uint32(b[0])<<24`. -/
def Uint32 (b : List Byte) : Run Nat :=
  (index b 3).bind fun b3 =>
  (index b 2).bind fun b2 =>
  (index b 1).bind fun b1 =>
  (index b 0).bind fun b0 =>
  .ret (b3.val ||| (b2.val <<< 8) ||| (b1.val <<< 16) ||| (b0.val <<< 24))

/-! ## `parseEs` -/

/-- Outcome of the inner `for` loop of `parseEs`. -/
inductive Scan where
  /-- a start code matched and `break` left the loop with this new `pos` -/
  | hit (pos : Nat)
  /-- the guard `i >= len(es)-6` fired: `return false` -/
  | miss
  /-- the loop condition `i < len(es)-4` failed: the loop ended, `pos` unchanged -/
  | through
  /-- an index was out of range -/
  | fault
  deriving DecidableEq, Repr

/-- Test `es[i] == 0x00 && es[i+1] == 0x00 && es[i+2] == 0x01`, evaluated left
to right with short circuit. -/
def startCode3 (es : List Byte) (i : Nat) : Run Bool :=
  (index es i).bind fun a =>
  if a.val = 0x00 then
    (index es (i + 1)).bind fun b =>
    if b.val = 0x00 then
      (index es (i + 2)).bind fun c => .ret (decide (c.val = 0x01))
    else .ret false
  else .ret false

/-- Test `es[i] == 0x00 && es[i+1] == 0x00 && es[i+2] == 0x00 && es[i+3] == 0x01`,
evaluated left to right with short circuit. -/
def startCode4 (es : List Byte) (i : Nat) : Run Bool :=
  (index es i).bind fun a =>
  if a.val = 0x00 then
    (index es (i + 1)).bind fun b =>
    if b.val = 0x00 then
      (index es (i + 2)).bind fun c =>
      if c.val = 0x00 then
        (index es (i + 3)).bind fun d => .ret (decide (d.val = 0x01))
      else .ret false
    else .ret false
  else .ret false

/-- Inner loop `for i := pos; i < len(es)-4; i++` of `parseEs`, started at `i`
with `n` iterations left before the condition `i < len(es)-4` fails (the caller
passes `n = len(es) - 4 - i`, zero when that is negative). The two tests cannot
loop; their `spin` cases only make the matches total. -/
def scanLoop (es : List Byte) : Nat → Nat → Scan
  | 0, _ => .through
  | n + 1, i =>
    match startCode3 es i with
    | .panic => .fault
    | .spin => .fault
    | .ret true => .hit (i + 3)
    | .ret false =>
      match startCode4 es i with
      | .panic => .fault
      | .spin => .fault
      | .ret true => .hit (i + 4)
      | .ret false =>
        if i + 6 ≥ es.length then .miss
        else scanLoop es n (i + 1)

/-- Outer loop `for { ... }` of `parseEs` entered with scan position `pos`;
`fuel` bounds the number of passes. After the inner loop the byte `es[pos]` is
read and its low five bits are switched on: 5 returns `true`, every other value
only logs and the outer loop goes round again. -/
def parseEsLoop (es : List Byte) : Nat → Nat → Run Bool
  | 0, _ => .spin
  | fuel + 1, pos =>
    match scanLoop es (es.length - 4 - pos) pos with
    | .fault => .panic
    | .miss => .ret false
    | .hit pos' =>
      (index es pos').bind fun b =>
      if b.val &&& 0x1F = 5 then .ret true else parseEsLoop es fuel pos'
    | .through =>
      (index es pos).bind fun b =>
      if b.val &&& 0x1F = 5 then .ret true else parseEsLoop es fuel pos

/-- Function `parseEs(es []byte) bool`, with at most `fuel` passes of its outer
loop. -/
def parseEs (fuel : Nat) (es : List Byte) : Run Bool :=
  parseEsLoop es fuel 0

/-- A 3-byte start code `00 00 01` lies at offset `i` of `es` (wholly inside
`es`). -/
def StartCodeAt (es : List Byte) (i : Nat) : Prop :=
  es[i]? = some 0 ∧ es[i + 1]? = some 0 ∧ es[i + 2]? = some 1

instance (es : List Byte) (i : Nat) : Decidable (StartCodeAt es i) := by
  unfold StartCodeAt; infer_instance

/-- A 4-byte start code `00 00 00 01` lies at offset `i` of `es`. -/
def StartCode4At (es : List Byte) (i : Nat) : Prop :=
  es[i]? = some 0 ∧ es[i + 1]? = some 0 ∧ es[i + 2]? = some 0 ∧ es[i + 3]? = some 1

instance (es : List Byte) (i : Nat) : Decidable (StartCode4At es i) := by
  unfold StartCode4At; infer_instance

/-! ## PES header -/

/-- The error values `Parse` can return. -/
inductive GoError where
  /-- value `io.EOF`: the reader had no byte left -/
  | EOF
  /-- value `io.ErrUnexpectedEOF`: the reader ended inside a packet -/
  | ErrUnexpectedEOF
  /-- value `errors.New("can't find sync byte 0x47")` -/
  | syncByte
  /-- value `errors.New("error start code")` -/
  | startCode
  /-- the error of `ioutil.WriteFile`, passed on by `Flush` -/
  | writeFile
  deriving DecidableEq, Repr

/-- Method `parsePesPtsDts(p []byte) int64`. The operands stay below `2^33`, so
the signed 64-bit arithmetic of the source never wraps. -/
def parsePesPtsDts (p : List Byte) : Run Int :=
  (index p 0).bind fun p0 =>
  let res := (p0.val &&& 0x0e) <<< 29
  (sliceFrom p 1).bind fun s1 =>
  (Uint16 s1).bind fun w1 =>
  let res := res ||| ((w1 >>> 1) <<< 15)
  (sliceFrom p 3).bind fun s3 =>
  (Uint16 s3).bind fun w3 =>
  let res := res ||| (w3 >>> 1)
  .ret (res : Int)

/-- Method `parsePes(p []byte) (bool, int64, error)`; the third component is
`none` for a `nil` error. The opening test
`p[0] == 0x00 && p[1] == 0x00 && p[2] == 0x01` is `startCode3 p 0`. -/
def parsePes (fuel : Nat) (p : List Byte) : Run (Bool × Int × Option GoError) :=
  (startCode3 p 0).bind fun ok =>
  if ok = false then .ret (false, -1, some .startCode) else
  (index p 3).bind fun _streamId =>
  (slice p 4 6).bind fun s46 =>
  (Uint16 s46).bind fun _pesPacketLength =>
  (slice p 6 8).bind fun s68 =>
  (Uint16 s68).bind fun pesHeaderFlags =>
  (index p 8).bind fun p8 =>
  let pesHeaderLength := p8.val
  (if pesHeaderFlags &&& 0x8000 ≠ 0 then (sliceFrom p 9).bind parsePesPtsDts
   else .ret 0).bind fun pts =>
  (if pesHeaderFlags &&& 0x4000 ≠ 0 then (sliceFrom p 14).bind parsePesPtsDts
   else .ret 0).bind fun _dts =>
  (sliceFrom p (pesHeaderLength + 9)).bind fun es =>
  (parseEs fuel es).bind fun isIdr =>
  .ret (isIdr, pts, none)

/-! ## The demuxer -/

/-- Type `SegmentBuffer`: the embedded `bytes.Buffer` and the field `Pts`. -/
structure SegmentBuffer where
  buf : List Byte
  Pts : Int
  deriving DecidableEq, Repr

/-- The two places where `Parse` calls `Flush`. -/
inductive CallSite where
  /-- line 124: a key frame arrived while the segment had a non-zero `Pts` -/
  | keyFrame
  /-- line 49: `io.ReadFull` failed -/
  | endOfStream
  deriving DecidableEq, Repr

/-- One call of `Flush`: where it was made, the `Pts` that names the file
`<Pts>.ts`, and the bytes handed to `ioutil.WriteFile`. -/
structure FlushEvent where
  site : CallSite
  Pts : Int
  bytes : List Byte
  deriving DecidableEq, Repr

/-- Method `Flush` called at `site`: the event it produces. -/
def Flush (site : CallSite) (cur : SegmentBuffer) : FlushEvent :=
  ⟨site, cur.Pts, cur.buf⟩

/-- What lines 55 to 117 of `Parse` find out about the packet `buf` that
`io.ReadFull` delivered. These lines read `buf` only; the segment is not
touched before line 119. -/
inductive Verdict where
  /-- the pass leaves `Parse`: `return` of an error at line 67 or 116, a panic,
  or a call that never returns -/
  | stop (exit : Run GoError)
  /-- the packet is not routed to `parsePes`, or `parsePes` reports no key
  frame: control goes straight to `d.cur.Write(buf)` -/
  | plain
  /-- the call `parsePes` returned `isIdr = true` with this `pts` and no error -/
  | key (pts : Int)
  deriving DecidableEq, Repr

/-- Continue the examination of a packet with the value of a call, or leave
`Parse` when the call panicked or kept looping. -/
def Run.orStop {α : Type} (r : Run α) (k : α → Verdict) : Verdict :=
  match r with
  | .ret a => k a
  | .panic => .stop .panic
  | .spin => .stop .spin

/-- Lines 55 to 117 of `Parse` on the packet `buf`: header fields, sync byte,
payload slice, and the call of `parsePes` when the packet starts a unit on PID
256. `adaptationFieldLength+1` is `uint8` arithmetic and wraps at 256. -/
def examine (fuel : Nat) (buf : List Byte) : Verdict :=
  (Uint32 buf).orStop fun header =>
  let payloadUnitStart : Bool := header &&& 0x400000 != 0
  let pid := (header &&& 0x1fff00) >>> 8
  let adaptationFieldExist : Bool := header &&& 0x20 != 0
  (index buf 0).orStop fun b0 =>
  if b0.val ≠ SYNC_BYTE then .stop (.ret .syncByte) else
  (sliceFrom buf 4).orStop fun p =>
  (if adaptationFieldExist then
      (index buf 4).bind fun adaptationFieldLength =>
      sliceFrom p ((adaptationFieldLength.val + 1) % 256)
    else .ret p).orStop fun p =>
  if payloadUnitStart && pid == 256 then
    (parsePes fuel p).orStop fun r =>
    match r with
    | (_, _, some err) => .stop (.ret err)
    | (false, _, none) => .plain
    | (true, pts, none) => .key pts
  else .plain

/-- Result of one pass of the loop of `Parse` after a successful read. -/
inductive StepResult where
  /-- the pass reached `d.cur.Write(buf)`; the loop goes on with this segment -/
  | next (cur : SegmentBuffer) (out : List FlushEvent)
  /-- the pass left `Parse` (a `return err`, a panic, or a loop that never ends) -/
  | stop (exit : Run GoError) (out : List FlushEvent)
  deriving DecidableEq, Repr

/-- Lines 55 to 135 of `Parse`: one pass of the loop on the packet `buf` with
active segment `cur`. On a key frame the segment is flushed when its `Pts` is
not 0 (a failed write is returned), then reset and given the new `pts`; in
every pass that reaches line 135 the packet is appended. -/
def demuxStep (sink : Int → List Byte → Bool) (fuel : Nat) (cur : SegmentBuffer)
    (buf : List Byte) : StepResult :=
  match examine fuel buf with
  | .stop exit => .stop exit []
  | .plain => .next ⟨cur.buf ++ buf, cur.Pts⟩ []
  | .key pts =>
    if cur.Pts ≠ 0 then
      if sink cur.Pts cur.buf then .next ⟨buf, pts⟩ [Flush .keyFrame cur]
      else .stop (.ret .writeFile) [Flush .keyFrame cur]
    else .next ⟨buf, pts⟩ []

/-- What `Parse` did: the calls of `Flush` in order, and how it ended (the
error it returned, a panic, or no return). -/
structure ParseResult where
  flushes : List FlushEvent
  exit : Run GoError
  deriving DecidableEq, Repr

/-- The loop of `Parse` on the unread bytes `r` with active segment `cur`.
`io.ReadFull` fills the 188-byte buffer exactly while 188 bytes are left, so the
loop is counted by `n`, the number of whole packets in `r`; with none left the
read fails with `io.EOF` (nothing read) or `io.ErrUnexpectedEOF`, the segment
is flushed, a failure of that write is only logged, and the read error is
returned. -/
def parseLoop (sink : Int → List Byte → Bool) (fuel : Nat) :
    Nat → List Byte → SegmentBuffer → ParseResult
  | 0, r, cur =>
    ⟨[Flush .endOfStream cur], .ret (if r.length = 0 then .EOF else .ErrUnexpectedEOF)⟩
  | n + 1, r, cur =>
    match demuxStep sink fuel cur (r.take MPEGTS_PACKET_SIZE) with
    | .stop exit out => ⟨out, exit⟩
    | .next cur' out =>
      let rest := parseLoop sink fuel n (r.drop MPEGTS_PACKET_SIZE) cur'
      ⟨out ++ rest.flushes, rest.exit⟩

/-- Method `Parse` of a demuxer made by `NewMpegTSDemuxer` over a reader that
delivers `input`: the segment starts empty with `Pts = 0`. -/
def Parse (sink : Int → List Byte → Bool) (fuel : Nat) (input : List Byte) : ParseResult :=
  parseLoop sink fuel (input.length / MPEGTS_PACKET_SIZE) input ⟨[], 0⟩

/-! ## The loop of `Parse` over whole packets -/

/-- The passes of the loop of `Parse` over the whole packets `pkts`, one
`demuxStep` each, started with segment `cur`: the segment after the last packet
and the flushes made on the way, or the exit of the pass that left `Parse`. -/
def advance (sink : Int → List Byte → Bool) (fuel : Nat) :
    List (List Byte) → SegmentBuffer → StepResult
  | [], cur => .next cur []
  | pkt :: pkts, cur =>
    match demuxStep sink fuel cur pkt with
    | .stop exit out => .stop exit out
    | .next cur' out =>
      match advance sink fuel pkts cur' with
      | .stop exit out' => .stop exit (out ++ out')
      | .next cur'' out' => .next cur'' (out ++ out')

/-- The segment shape reached by the loop: `seg` is a run of packets of which
only the first may be a detected key frame, and `Pts` is the timestamp of that
key frame when it is one. -/
def SegmentOf (fuel : Nat) (seg : List (List Byte)) (Pts : Int) : Prop :=
  (∀ p ∈ seg.tail, ∀ t, examine fuel p ≠ .key t) ∧
  (∀ p0 t, seg.head? = some p0 → examine fuel p0 = .key t → Pts = t)

/-- The flush `e` wrote a segment of the packet sequence `all`: a contiguous
run `seg` of its packets, shaped and tagged as `SegmentOf` says. -/
def FlushedRun (fuel : Nat) (all : List (List Byte)) (e : FlushEvent) : Prop :=
  ∃ pre seg post, all = pre ++ seg ++ post ∧ e.bytes = seg.flatten ∧
    SegmentOf fuel seg e.Pts

/-! ## Sample data -/

/-- A sink that accepts every write. -/
def acceptAll : Int → List Byte → Bool := fun _ _ => true

/-- Fill a packet up to 188 bytes with stuffing bytes `FF`. -/
def pad188 (l : List Byte) : List Byte :=
  l ++ List.replicate (MPEGTS_PACKET_SIZE - l.length) 0xFF

/-- A packet on PID 256 that starts a PES unit with PTS field `21 00 01 00 lo`
(timestamp `lo / 2`) and whose elementary stream is `00 00 00 01 nal`. -/
def samplePacket (lo nal : Byte) : List Byte :=
  pad188 [0x47, 0x41, 0x00, 0x10,
    0x00, 0x00, 0x01, 0xE0, 0x00, 0x00, 0x80, 0x80, 0x05, 0x21, 0x00, 0x01, 0x00, lo,
    0x00, 0x00, 0x00, 0x01, nal]

/-- A payload-only packet on PID 257. -/
def otherPidPacket : List Byte :=
  pad188 [0x47, 0x01, 0x01, 0x10]

/-- A packet on PID 256 that starts a unit and whose adaptation field of
declared length `afl` is followed by the payload `pes`; it has 188 bytes when
`afl + len(pes) = 183`. -/
def adaptedPacket (afl : Byte) (pes : List Byte) : List Byte :=
  [0x47, 0x41, 0x00, 0x30, afl] ++ List.replicate afl.val 0xFF ++ pes

/-- A 14-byte PES payload: start code, flags byte `40`, header length 0, and
the elementary stream `00 00 00 01 65`. -/
def pesShortDts : List Byte :=
  [0x00, 0x00, 0x01, 0xE0, 0x00, 0x00, 0x40, 0x00, 0x00, 0x00, 0x00, 0x00, 0x01, 0x65]

/-- A 20-byte PES payload: start code, flags bytes `80 80`, header length 5, a
PTS field, and the elementary stream `00 00 00 01 65 AA`. -/
def pesKeyFrame : List Byte :=
  [0x00, 0x00, 0x01, 0xE0, 0x00, 0x00, 0x80, 0x80, 0x05, 0x21, 0x00, 0x01, 0x00, 0x03,
    0x00, 0x00, 0x00, 0x01, 0x65, 0xAA]

/-- An elementary stream with an SPS unit (type 7) followed by an IDR unit
(type 5). -/
def esSpsThenIdr : List Byte :=
  [0x00, 0x00, 0x00, 0x01, 0x67, 0x00, 0x00, 0x01, 0x65, 0x00, 0x00, 0x00]

/-- An elementary stream with an SPS unit (type 7) and no further start code. -/
def esSpsOnly : List Byte :=
  [0x00, 0x00, 0x00, 0x01, 0x67, 0x42, 0x00, 0x1E, 0xAB, 0x40]

/-- A 9-byte PES payload: the fixed header with header length 0 and nothing
after it, so the elementary stream is empty. -/
def pesHeaderOnly : List Byte :=
  [0x00, 0x00, 0x01, 0xE0, 0x00, 0x00, 0x00, 0x00, 0x00]

/-! ## Parts of one pass, and more sample data -/

/-- Line 58 of `Parse`: local `payloadUnitStart`. -/
def payloadUnitStart (header : Nat) : Bool := header &&& 0x400000 != 0

/-- Line 60 of `Parse`: local `pid`. -/
def pid (header : Nat) : Nat := (header &&& 0x1fff00) >>> 8

/-- Line 62 of `Parse`: local `adaptationFieldExist`. -/
def adaptationFieldExist (header : Nat) : Bool := header &&& 0x20 != 0

/-- Lines 74 to 79 of `Parse`: the payload slice `p` of the packet `buf` whose
header word is `header`. `adaptationFieldLength+1` is `uint8` arithmetic and
wraps at 256. -/
def payload (header : Nat) (buf : List Byte) : Run (List Byte) :=
  (sliceFrom buf 4).bind fun p =>
  if adaptationFieldExist header then
    (index buf 4).bind fun adaptationFieldLength =>
    sliceFrom p ((adaptationFieldLength.val + 1) % 256)
  else .ret p

/-- Lines 114 to 131 of `Parse`, as far as they read the packet: the call of
`parsePes` on the payload `p` and the tests of its error and of `isIdr`. -/
def pesVerdict (fuel : Nat) (p : List Byte) : Verdict :=
  (parsePes fuel p).orStop fun r =>
  match r with
  | (_, _, some err) => .stop (.ret err)
  | (false, _, none) => .plain
  | (true, pts, none) => .key pts

/-- A packet that starts on PID 257 with the adaptation-field flag set and the
declared length `L`. -/
def fieldPacket (L : Byte) : List Byte :=
  pad188 [0x47, 0x01, 0x01, 0x30, L]

/-- A 14-byte PES payload in the standard layout without a PTS: byte 6 is `80`
(the marker bits `10`), byte 7 is `00` (PTS_DTS_flags `00`), the header length
is 0 and the elementary stream is `00 00 00 01 65`. -/
def pesNoPts : List Byte :=
  [0x00, 0x00, 0x01, 0xE0, 0x00, 0x00, 0x80, 0x00, 0x00, 0x00, 0x00, 0x00, 0x01, 0x65]

/-- A 20-byte PES payload whose byte 6 is `00` and whose byte 7 is `80`
(PTS_DTS_flags `10`): header length 5, the PTS field `21 00 01 00 03`, and the
elementary stream `00 00 00 01 65 AA`. -/
def pesPtsInByte7 : List Byte :=
  [0x00, 0x00, 0x01, 0xE0, 0x00, 0x00, 0x00, 0x80, 0x05, 0x21, 0x00, 0x01, 0x00, 0x03,
    0x00, 0x00, 0x00, 0x01, 0x65, 0xAA]

/-- The payload `p` holds every byte `parsePes` and `parseEs` read from it: at
least 3 bytes; and when it begins with `00 00 01`, the 9 header bytes, the
5-byte field at offset 9 when bit `0x80` of byte 6 is set, the 5-byte field at
offset 14 when bit `0x40` of byte 6 is set, and at least one byte after the
header of declared length `p[8]`. -/
def PesInRange (p : List Byte) : Prop :=
  3 ≤ p.length ∧
  (StartCodeAt p 0 →
    9 ≤ p.length ∧
    (∀ f, p[6]? = some f → f.val &&& 0x80 ≠ 0 → 14 ≤ p.length) ∧
    (∀ f, p[6]? = some f → f.val &&& 0x40 ≠ 0 → 19 ≤ p.length) ∧
    (∀ hl, p[8]? = some hl → hl.val + 9 < p.length))

/-- A 14-byte PES payload whose declared header length 200 reaches beyond the
payload. -/
def pesLongHeader : List Byte :=
  [0x00, 0x00, 0x01, 0xE0, 0x00, 0x00, 0x00, 0x00, 0xC8, 0x00, 0x00, 0x00, 0x01, 0x65]

/-- An elementary stream that holds one access-unit delimiter (type 9) and
nothing else. -/
def esDelimiterOnly : List Byte :=
  [0x00, 0x00, 0x01, 0x09, 0xF0]

/-- The packet is detected as a key frame. -/
def isKeyFrame (fuel : Nat) (buf : List Byte) : Bool :=
  match examine fuel buf with
  | .key _ => true
  | _ => false

/-! ## Basic facts about the access helpers -/

@[simp] theorem index_zero_cons (b : Byte) (s : List Byte) : index (b :: s) 0 = .ret b := by
  simp [index]

@[simp] theorem index_succ_cons (b : Byte) (s : List Byte) (i : Nat) :
    index (b :: s) (i + 1) = index s i := by
  simp [index]

@[simp] theorem index_nil (i : Nat) : index [] i = .panic := by
  simp [index]

@[simp] theorem Run.bind_ret {α β : Type} (a : α) (k : α → Run β) : (Run.ret a).bind k = k a := rfl

@[simp] theorem Run.bind_panic {α β : Type} (k : α → Run β) :
    (Run.panic : Run α).bind k = .panic := rfl

@[simp] theorem Run.bind_spin {α β : Type} (k : α → Run β) :
    (Run.spin : Run α).bind k = .spin := rfl

theorem index_of_lt {s : List Byte} {i : Nat} (h : i < s.length) : index s i = .ret (s.get ⟨i, h⟩) := by
  simp [index, List.getElem?_eq_getElem h]

theorem index_of_ge {s : List Byte} {i : Nat} (h : s.length ≤ i) : index s i = .panic := by
  simp [index, List.getElem?_eq_none h]

/-! ## The timestamp decoder -/

/-- The mask `0x0e` keeps bits 3..1 of a byte. -/
theorem byte_and_0e (b : Byte) : b.val &&& 0x0e = (b.val / 2 % 8) * 2 := by
  revert b
  set_option maxRecDepth 100000 in decide

/-- A big-endian 16-bit word as arithmetic. -/
theorem word_or (hi lo : Byte) : lo.val ||| (hi.val <<< 8) = hi.val * 256 + lo.val := by
  have h : lo.val < 2 ^ 8 := lo.isLt
  rw [Nat.or_comm, Nat.shiftLeft_eq, Nat.mul_comm, ← Nat.mul_add_lt_is_or h]

/-- The three shifted fields of a timestamp do not overlap, so joining them with
bitwise or is addition. -/
theorem pts_pack (d x y : Nat) (hx : x < 2 ^ 15) (hy : y < 2 ^ 15) :
    ((d * 2) <<< 29 ||| (x <<< 15)) ||| y = d * 2 ^ 30 + x * 2 ^ 15 + y := by
  have e1 : (d * 2) <<< 29 = 2 ^ 30 * d := by
    simp only [Nat.shiftLeft_eq]; ring
  have hx30 : x <<< 15 < 2 ^ 30 := by
    rw [Nat.shiftLeft_eq]; omega
  rw [e1, ← Nat.mul_add_lt_is_or hx30]
  have e2 : 2 ^ 30 * d + x <<< 15 = 2 ^ 15 * (d * 2 ^ 15 + x) := by
    simp only [Nat.shiftLeft_eq]; ring
  rw [e2, ← Nat.mul_add_lt_is_or hy]
  ring

theorem parsePesPtsDts_cons (b0 b1 b2 b3 b4 : Byte) (rest : List Byte) :
    parsePesPtsDts (b0 :: b1 :: b2 :: b3 :: b4 :: rest) =
      .ret (((b0.val / 2 % 8) * 2 ^ 30 + ((b1.val * 256 + b2.val) / 2) * 2 ^ 15
        + (b3.val * 256 + b4.val) / 2 : Nat) : Int) := by
  have h1 := b1.isLt
  have h2 := b2.isLt
  have h3 := b3.isLt
  have h4 := b4.isLt
  simp only [parsePesPtsDts, sliceFrom, Uint16, index_zero_cons, index_succ_cons, Run.bind_ret,
    List.length_cons, List.drop_succ_cons, List.drop_zero, word_or, byte_and_0e,
    Nat.shiftRight_eq_div_pow, pow_one]
  rw [if_pos (by omega), if_pos (by omega)]
  simp only [Run.bind_ret, index_zero_cons, index_succ_cons]
  rw [pts_pack _ _ _ (by omega) (by omega)]

/-- C6. For every 5-byte field `b0..b4` (whatever follows it in the slice)
`parsePesPtsDts` returns
`((b0 / 2) mod 8) * 2^30 + ((b1*256 + b2) / 2) * 2^15 + ((b3*256 + b4) / 2)`;
the value lies in `[0, 2^33)`; and the fixture `21 00 01 00 01` decodes to the
value of the formula, which is 0. -/
theorem C6_pts_bit_layout :
    (∀ (b0 b1 b2 b3 b4 : Byte) (rest : List Byte),
      ∃ v : Int,
        parsePesPtsDts (b0 :: b1 :: b2 :: b3 :: b4 :: rest) = .ret v ∧
        v = ((b0.val / 2 % 8 : Nat) : Int) * 2 ^ 30
              + (((b1.val * 256 + b2.val) / 2 : Nat) : Int) * 2 ^ 15
              + (((b3.val * 256 + b4.val) / 2 : Nat) : Int) ∧
        0 ≤ v ∧ v < 2 ^ 33) ∧
    parsePesPtsDts [0x21, 0x00, 0x01, 0x00, 0x01]
      = .ret (((0x21 / 2 % 8 : Nat) : Int) * 2 ^ 30 + (((0x00 * 256 + 0x01) / 2 : Nat) : Int) * 2 ^ 15
          + (((0x00 * 256 + 0x01) / 2 : Nat) : Int)) ∧
    parsePesPtsDts [0x21, 0x00, 0x01, 0x00, 0x01] = .ret 0 := by
  refine ⟨?_, by decide, by decide⟩
  intro b0 b1 b2 b3 b4 rest
  refine ⟨_, parsePesPtsDts_cons b0 b1 b2 b3 b4 rest, ?_, ?_, ?_⟩
  · push_cast; ring
  · exact Int.natCast_nonneg _
  · have h0 := b0.isLt
    have h1 := b1.isLt
    have h2 := b2.isLt
    have h3 := b3.isLt
    have h4 := b4.isLt
    have : (b0.val / 2 % 8) * 2 ^ 30 + ((b1.val * 256 + b2.val) / 2) * 2 ^ 15
        + (b3.val * 256 + b4.val) / 2 < 2 ^ 33 := by omega
    exact_mod_cast this


/-! ## The NAL scanner -/

theorem startCode3_eq_ret {es : List Byte} {i : Nat} (h : i + 2 < es.length) :
    startCode3 es i = .ret (decide (StartCodeAt es i)) := by
  have h0 : i < es.length := by omega
  have h1 : i + 1 < es.length := by omega
  simp only [startCode3, StartCodeAt, index, List.getElem?_eq_getElem h0,
    List.getElem?_eq_getElem h1, List.getElem?_eq_getElem h, Run.bind_ret, Option.some.injEq]
  by_cases a : es[i] = 0 <;> by_cases b : es[i + 1] = 0 <;> by_cases c : es[i + 2] = 1 <;>
    simp [a, b, c, Fin.ext_iff] <;> simp_all [Fin.ext_iff]

theorem startCode4_eq_ret {es : List Byte} {i : Nat} (h : i + 3 < es.length) :
    startCode4 es i = .ret (decide (StartCode4At es i)) := by
  have h0 : i < es.length := by omega
  have h1 : i + 1 < es.length := by omega
  have h2 : i + 2 < es.length := by omega
  simp only [startCode4, StartCode4At, index, List.getElem?_eq_getElem h0,
    List.getElem?_eq_getElem h1, List.getElem?_eq_getElem h2, List.getElem?_eq_getElem h,
    Run.bind_ret, Option.some.injEq]
  by_cases a : es[i] = 0 <;> by_cases b : es[i + 1] = 0 <;> by_cases c : es[i + 2] = 0 <;>
    by_cases d : es[i + 3] = 1 <;>
    simp [a, b, c, d, Fin.ext_iff] <;> simp_all [Fin.ext_iff]


/-- One pass of the inner loop, with every index in range. -/
theorem scanLoop_succ {es : List Byte} {i : Nat} (n : Nat) (h : i + 3 < es.length) :
    scanLoop es (n + 1) i =
      if StartCodeAt es i then .hit (i + 3)
      else if StartCode4At es i then .hit (i + 4)
      else if i + 6 ≥ es.length then .miss
      else scanLoop es n (i + 1) := by
  rw [scanLoop, startCode3_eq_ret (by omega), startCode4_eq_ret h]
  by_cases a : StartCodeAt es i
  · simp [a]
  · by_cases b : StartCode4At es i <;> simp [a, b]

/-- The inner loop, run for the number of passes its condition allows, reads
only inside `es`, and a match leaves `pos` inside `es`. -/
theorem scanLoop_in_range (es : List Byte) :
    ∀ (n i : Nat), (n ≠ 0 → i + n + 4 ≤ es.length) →
      scanLoop es n i ≠ .fault ∧
      ∀ p, scanLoop es n i = .hit p → i + 3 ≤ p ∧ p < es.length := by
  intro n
  induction n with
  | zero => intro i _; simp [scanLoop]
  | succ n ih =>
    intro i h
    have h := h (Nat.succ_ne_zero n)
    rw [scanLoop_succ n (by omega)]
    have := ih (i + 1) (by omega)
    split_ifs <;> simp <;> first | omega | skip
    · exact ⟨this.1, fun p hp => ⟨by have := (this.2 p hp).1; omega, (this.2 p hp).2⟩⟩

/-- A 4-byte start code contains a 3-byte one, one byte later. -/
theorem StartCode4At.startCodeAt_succ {es : List Byte} {i : Nat} (h : StartCode4At es i) :
    StartCodeAt es (i + 1) :=
  ⟨h.2.1, h.2.2.1, h.2.2.2⟩

/-- With no start code from `i` on, an inner loop that runs at all ends in
`return false`. -/
theorem scanLoop_miss (es : List Byte) :
    ∀ (n i : Nat), i + (n + 1) + 4 = es.length → (∀ j, i ≤ j → ¬ StartCodeAt es j) →
      scanLoop es (n + 1) i = .miss := by
  intro n
  induction n with
  | zero =>
    intro i h hno
    rw [scanLoop_succ 0 (by omega), if_neg (hno i (le_refl i)),
      if_neg (fun h4 => hno (i + 1) (by omega) h4.startCodeAt_succ), if_pos (by omega)]
  | succ n ih =>
    intro i h hno
    rw [scanLoop_succ (n + 1) (by omega), if_neg (hno i (le_refl i)),
      if_neg (fun h4 => hno (i + 1) (by omega) h4.startCodeAt_succ)]
    split_ifs
    · rfl
    · exact ih (i + 1) (by omega) (fun j hj => hno j (by omega))

/-- A pass of the outer loop whose inner loop does not run and whose byte
`es[pos]` is not an IDR type changes nothing: the loop never ends. -/
theorem parseEsLoop_spin {es : List Byte} {pos : Nat} {b : Byte} (hlen : es.length ≤ pos + 4)
    (hb : es[pos]? = some b) (h5 : b.val &&& 0x1F ≠ 5) :
    ∀ fuel, parseEsLoop es fuel pos = .spin := by
  intro fuel
  induction fuel with
  | zero => rfl
  | succ f ih =>
    have h0 : es.length - 4 - pos = 0 := by omega
    rw [parseEsLoop, h0]
    simp [scanLoop, index, hb, h5, ih]

/-- On a non-empty range no pass of `parseEs` reads outside the range. -/
theorem parseEsLoop_no_panic (es : List Byte) :
    ∀ (fuel pos : Nat), pos < es.length → parseEsLoop es fuel pos ≠ .panic := by
  intro fuel
  induction fuel with
  | zero => intro pos _; simp [parseEsLoop]
  | succ f ih =>
    intro pos hpos
    have hr := scanLoop_in_range es (es.length - 4 - pos) pos (by omega)
    rw [parseEsLoop]
    cases hs : scanLoop es (es.length - 4 - pos) pos with
    | fault => exact absurd hs hr.1
    | miss => simp
    | hit p =>
      have hp := (hr.2 p hs).2
      simp only [index_of_lt hp, Run.bind_ret]
      split_ifs
      · simp
      · exact ih p hp
    | through =>
      simp only [index_of_lt hpos, Run.bind_ret]
      split_ifs
      · simp
      · exact ih pos hpos

theorem parseEs_no_panic_of_ne_nil (fuel : Nat) (es : List Byte) (h : es ≠ []) :
    parseEs fuel es ≠ .panic :=
  parseEsLoop_no_panic es fuel 0 (List.length_pos.mpr h)

/-- A range of at least 5 bytes without a start code is not a key frame. -/
theorem parseEs_false_of_no_start_code (fuel : Nat) (es : List Byte) (hlen : 5 ≤ es.length)
    (hno : ∀ j, ¬ StartCodeAt es j) : parseEs (fuel + 1) es = .ret false := by
  obtain ⟨n, hn⟩ : ∃ n, es.length - 4 - 0 = n + 1 := ⟨es.length - 5, by omega⟩
  rw [parseEs, parseEsLoop, hn, scanLoop_miss es n 0 (by omega) (fun j _ => hno j)]


/-! ## Single bits and the PES header -/

/-- Masking with one bit, as arithmetic. -/
theorem and_two_pow_eq (x k : Nat) : x &&& 2 ^ k = (x / 2 ^ k % 2) * 2 ^ k := by
  rw [Nat.and_two_pow, Nat.testBit_to_div_mod]
  rcases Nat.mod_two_eq_zero_or_one (x / 2 ^ k) with h | h <;> simp [h]

/-- The low five bits of a byte. -/
theorem and_1F_eq_mod (x : Nat) : x &&& 0x1F = x % 32 :=
  Nat.and_pow_two_sub_one_eq_mod x 5

/-- Bit `0x4000` of the big-endian flags word is bit `0x40` of its first byte. -/
theorem word_and_4000 (f1 f2 : Byte) :
    (f1.val * 256 + f2.val) &&& 0x4000 = 0 ↔ f1.val &&& 0x40 = 0 := by
  have h2 := f2.isLt
  have e1 := and_two_pow_eq (f1.val * 256 + f2.val) 14
  have e2 := and_two_pow_eq f1.val 6
  norm_num at e1 e2
  rw [e1, e2]
  omega

/-- Bit `0x8000` of the big-endian flags word is bit `0x80` of its first byte. -/
theorem word_and_8000 (f1 f2 : Byte) :
    (f1.val * 256 + f2.val) &&& 0x8000 = 0 ↔ f1.val &&& 0x80 = 0 := by
  have h2 := f2.isLt
  have e1 := and_two_pow_eq (f1.val * 256 + f2.val) 15
  have e2 := and_two_pow_eq f1.val 7
  norm_num at e1 e2
  rw [e1, e2]
  omega

theorem sliceFrom_of_le {s : List Byte} {k : Nat} (h : k ≤ s.length) :
    sliceFrom s k = .ret (s.drop k) := by
  simp [sliceFrom, h]

theorem sliceFrom_of_gt {s : List Byte} {k : Nat} (h : s.length < k) :
    sliceFrom s k = .panic := by
  simp [sliceFrom, Nat.not_le.mpr h]

/-- A slice of at least five bytes always decodes. -/
theorem parsePesPtsDts_of_length {q : List Byte} (h : 5 ≤ q.length) :
    ∃ v, parsePesPtsDts q = .ret v := by
  match q, h with
  | b0 :: b1 :: b2 :: b3 :: b4 :: rest, _ => exact ⟨_, parsePesPtsDts_cons b0 b1 b2 b3 b4 rest⟩

/-- A slice of fewer than five bytes makes the decoder panic. -/
theorem parsePesPtsDts_of_short {q : List Byte} (h : q.length < 5) :
    parsePesPtsDts q = .panic := by
  match q, h with
  | [], _ => rfl
  | [_], _ => rfl
  | [_, _], _ => rfl
  | [_, _, _], _ => rfl
  | [_, _, _, _], _ => rfl

/-- The PES parser on a payload that opens with `00 00 01` and has its nine
fixed header bytes: what is left is the two optional timestamps, the slice of
the elementary stream and the scan. -/
theorem parsePes_header (fuel : Nat) (sid l1 l2 f1 f2 hl : Byte) (rest : List Byte) :
    parsePes fuel (0x00 :: 0x00 :: 0x01 :: sid :: l1 :: l2 :: f1 :: f2 :: hl :: rest) =
      (if (f1.val * 256 + f2.val) &&& 0x8000 ≠ 0 then parsePesPtsDts rest
        else .ret 0).bind fun pts =>
      (if (f1.val * 256 + f2.val) &&& 0x4000 ≠ 0 then (sliceFrom rest 5).bind parsePesPtsDts
        else .ret 0).bind fun _dts =>
      (sliceFrom rest hl.val).bind fun es =>
      (parseEs fuel es).bind fun isIdr => .ret (isIdr, pts, none) := by
  have e9 : sliceFrom (0x00 :: 0x00 :: 0x01 :: sid :: l1 :: l2 :: f1 :: f2 :: hl :: rest) 9
      = .ret rest := by simp [sliceFrom]
  have e14 : sliceFrom (0x00 :: 0x00 :: 0x01 :: sid :: l1 :: l2 :: f1 :: f2 :: hl :: rest) 14
      = sliceFrom rest 5 := by simp [sliceFrom]
  have ees : sliceFrom (0x00 :: 0x00 :: 0x01 :: sid :: l1 :: l2 :: f1 :: f2 :: hl :: rest)
      (hl.val + 9) = sliceFrom rest hl.val := by simp [sliceFrom]
  simp only [parsePes, e9, e14, ees]
  simp [startCode3, slice, Uint16, word_or, ees]


/-! ## One pass of the loop of `Parse` -/

theorem Run.bind_eq_ret {α β : Type} {r : Run α} {k : α → Run β} {x : β}
    (h : r.bind k = .ret x) : ∃ a, r = .ret a ∧ k a = .ret x := by
  cases r with
  | ret a => exact ⟨a, rfl, h⟩
  | panic => simp [Run.bind] at h
  | spin => simp [Run.bind] at h

/-- The only error `parsePes` returns is the start-code error, with key-frame =
false and pts = -1. -/
theorem parsePes_err {fuel : Nat} {p : List Byte} {i : Bool} {t : Int} {e : GoError}
    (h : parsePes fuel p = .ret (i, t, some e)) : i = false ∧ t = -1 ∧ e = .startCode := by
  unfold parsePes at h
  obtain ⟨ok, -, h⟩ := Run.bind_eq_ret h
  split_ifs at h
  · simp only [Run.ret.injEq, Prod.mk.injEq, Option.some.injEq] at h
    exact ⟨h.1.symm, h.2.1.symm, h.2.2.symm⟩
  · obtain ⟨_, -, h⟩ := Run.bind_eq_ret h
    obtain ⟨_, -, h⟩ := Run.bind_eq_ret h
    obtain ⟨_, -, h⟩ := Run.bind_eq_ret h
    obtain ⟨_, -, h⟩ := Run.bind_eq_ret h
    obtain ⟨_, -, h⟩ := Run.bind_eq_ret h
    obtain ⟨_, -, h⟩ := Run.bind_eq_ret h
    obtain ⟨_, -, h⟩ := Run.bind_eq_ret h
    obtain ⟨_, -, h⟩ := Run.bind_eq_ret h
    obtain ⟨_, -, h⟩ := Run.bind_eq_ret h
    obtain ⟨_, -, h⟩ := Run.bind_eq_ret h
    simp at h

theorem Run.orStop_eq_stop {α : Type} {r : Run α} {k : α → Verdict} {e : Run GoError}
    (h : r.orStop k = .stop e) : e = .panic ∨ e = .spin ∨ ∃ a, r = .ret a ∧ k a = .stop e := by
  cases r with
  | ret a => exact Or.inr (Or.inr ⟨a, rfl, h⟩)
  | panic => simp only [Run.orStop, Verdict.stop.injEq] at h; exact Or.inl h.symm
  | spin => simp only [Run.orStop, Verdict.stop.injEq] at h; exact Or.inr (Or.inl h.symm)

/-- The call of `parsePes` at line 114 and the test of its error at line 115
leave `Parse` only by a panic, a call that does not return, or the start-code
error. -/
theorem routed_stop {fuel : Nat} {p : List Byte} {e : Run GoError}
    (h : ((parsePes fuel p).orStop fun r =>
      match r with
      | (_, _, some err) => Verdict.stop (.ret err)
      | (false, _, none) => Verdict.plain
      | (true, pts, none) => Verdict.key pts) = .stop e) :
    e = .panic ∨ e = .spin ∨ e = .ret .startCode := by
  rcases Run.orStop_eq_stop h with h | h | ⟨r, hr, h⟩
  · exact Or.inl h
  · exact Or.inr (Or.inl h)
  obtain ⟨i, t, err⟩ := r
  cases err with
  | none => cases i <;> simp at h
  | some err =>
    simp only [Verdict.stop.injEq] at h
    rw [(parsePes_err hr).2.2] at h
    exact Or.inr (Or.inr h.symm)

/-- The ways a pass can leave `Parse` before line 119: a panic, a call that
does not return, the sync-byte error, the start-code error. -/
theorem examine_stop {fuel : Nat} {buf : List Byte} {e : Run GoError}
    (h : examine fuel buf = .stop e) :
    e = .panic ∨ e = .spin ∨ e = .ret .syncByte ∨ e = .ret .startCode := by
  unfold examine at h
  rcases Run.orStop_eq_stop h with h | h | ⟨header, -, h⟩
  · exact Or.inl h
  · exact Or.inr (Or.inl h)
  rcases Run.orStop_eq_stop h with h | h | ⟨b0, -, h⟩
  · exact Or.inl h
  · exact Or.inr (Or.inl h)
  by_cases hsync : b0.val ≠ SYNC_BYTE
  · rw [if_pos hsync] at h
    simp only [Verdict.stop.injEq] at h
    exact Or.inr (Or.inr (Or.inl h.symm))
  rw [if_neg hsync] at h
  rcases Run.orStop_eq_stop h with h | h | ⟨p, -, h⟩
  · exact Or.inl h
  · exact Or.inr (Or.inl h)
  rcases Run.orStop_eq_stop h with h | h | ⟨p', -, h⟩
  · exact Or.inl h
  · exact Or.inr (Or.inl h)
  by_cases hroute : (header &&& 0x400000 != 0 && (header &&& 0x1fff00) >>> 8 == 256) = true
  · rw [if_pos hroute] at h
    rcases routed_stop h with h | h | h
    · exact Or.inl h
    · exact Or.inr (Or.inl h)
    · exact Or.inr (Or.inr (Or.inr h))
  · rw [if_neg hroute] at h
    simp at h

theorem examine_stop_ne_eof {fuel : Nat} {buf : List Byte} {e : Run GoError}
    (h : examine fuel buf = .stop e) : e ≠ .ret .EOF := by
  rcases examine_stop h with rfl | rfl | rfl | rfl <;> simp

/-- A whole packet whose first byte is not `47` ends `Parse` with the sync-byte
error. -/
theorem examine_bad_sync (fuel : Nat) {buf : List Byte} (hlen : buf.length = 188)
    (h0 : buf[0]? ≠ some 0x47) : examine fuel buf = .stop (.ret .syncByte) := by
  match buf, hlen with
  | b0 :: b1 :: b2 :: b3 :: rest, _ =>
    have hb : b0 ≠ 0x47 := by simpa using h0
    have hv : b0.val ≠ SYNC_BYTE := fun h => hb (Fin.ext h)
    simp [examine, Uint32, Run.orStop, hv]

theorem demuxStep_plain {sink : Int → List Byte → Bool} {fuel : Nat} {buf : List Byte}
    (cur : SegmentBuffer) (h : examine fuel buf = .plain) :
    demuxStep sink fuel cur buf = .next ⟨cur.buf ++ buf, cur.Pts⟩ [] := by
  simp [demuxStep, h]

theorem demuxStep_stop {sink : Int → List Byte → Bool} {fuel : Nat} {buf : List Byte}
    {e : Run GoError} (cur : SegmentBuffer) (h : examine fuel buf = .stop e) :
    demuxStep sink fuel cur buf = .stop e [] := by
  simp [demuxStep, h]

theorem demuxStep_key_first {sink : Int → List Byte → Bool} {fuel : Nat} {buf : List Byte}
    {t : Int} {cur : SegmentBuffer} (h : examine fuel buf = .key t) (h0 : cur.Pts = 0) :
    demuxStep sink fuel cur buf = .next ⟨buf, t⟩ [] := by
  simp [demuxStep, h, h0]

theorem demuxStep_key_flush {sink : Int → List Byte → Bool} {fuel : Nat} {buf : List Byte}
    {t : Int} {cur : SegmentBuffer} (h : examine fuel buf = .key t) (h0 : cur.Pts ≠ 0)
    (hs : sink cur.Pts cur.buf = true) :
    demuxStep sink fuel cur buf = .next ⟨buf, t⟩ [Flush .keyFrame cur] := by
  simp [demuxStep, h, h0, hs]

theorem demuxStep_key_write_error {sink : Int → List Byte → Bool} {fuel : Nat}
    {buf : List Byte} {t : Int} {cur : SegmentBuffer} (h : examine fuel buf = .key t)
    (h0 : cur.Pts ≠ 0) (hs : sink cur.Pts cur.buf = false) :
    demuxStep sink fuel cur buf = .stop (.ret .writeFile) [Flush .keyFrame cur] := by
  simp [demuxStep, h, h0, hs]

/-- No pass leaves `Parse` with `io.EOF`. -/
theorem demuxStep_stop_ne_eof {sink : Int → List Byte → Bool} {fuel : Nat} {buf : List Byte}
    {cur : SegmentBuffer} {e : Run GoError} {out : List FlushEvent}
    (h : demuxStep sink fuel cur buf = .stop e out) : e ≠ .ret .EOF := by
  unfold demuxStep at h
  cases hv : examine fuel buf with
  | stop e' =>
    rw [hv] at h
    simp only [StepResult.stop.injEq] at h
    rw [← h.1]
    exact examine_stop_ne_eof hv
  | plain => rw [hv] at h; simp at h
  | key t =>
    rw [hv] at h
    simp only at h
    split_ifs at h
    · simp only [StepResult.stop.injEq] at h
      rw [← h.1]; simp


/-! ## The loop of `Parse` -/

theorem length_flatten_packets {pkts : List (List Byte)} (h : ∀ p ∈ pkts, p.length = 188) :
    pkts.flatten.length = 188 * pkts.length := by
  induction pkts with
  | nil => rfl
  | cons p ps ih =>
    have hp := h p (List.mem_cons_self p ps)
    have := ih (fun q hq => h q (List.mem_cons_of_mem p hq))
    simp only [List.flatten_cons, List.length_append, List.length_cons, hp, this]
    omega

/-- One pass of the loop on a stream that starts with a whole packet. -/
theorem parseLoop_cons (sink : Int → List Byte → Bool) (fuel n : Nat) {pkt : List Byte}
    (rest : List Byte) (cur : SegmentBuffer) (h : pkt.length = 188) :
    parseLoop sink fuel (n + 1) (pkt ++ rest) cur =
      match demuxStep sink fuel cur pkt with
      | .stop exit out => ⟨out, exit⟩
      | .next cur' out =>
        ⟨out ++ (parseLoop sink fuel n rest cur').flushes, (parseLoop sink fuel n rest cur').exit⟩ := by
  rw [parseLoop, MPEGTS_PACKET_SIZE, List.take_left' h, List.drop_left' h]

/-- The loop of `Parse` on a stream that starts with the whole packets `pkts`
is `advance` over them and then the loop on what follows. -/
theorem parseLoop_advance (sink : Int → List Byte → Bool) (fuel : Nat) :
    ∀ (pkts : List (List Byte)) (cur : SegmentBuffer) (n : Nat) (more : List Byte),
      (∀ p ∈ pkts, p.length = 188) →
      parseLoop sink fuel (pkts.length + n) (pkts.flatten ++ more) cur =
        match advance sink fuel pkts cur with
        | .stop exit out => ⟨out, exit⟩
        | .next cur' out =>
          ⟨out ++ (parseLoop sink fuel n more cur').flushes,
            (parseLoop sink fuel n more cur').exit⟩ := by
  intro pkts
  induction pkts with
  | nil => intro cur n more _; simp [advance]
  | cons p ps ih =>
    intro cur n more h
    have hp := h p (List.mem_cons_self p ps)
    have hps : ∀ q ∈ ps, q.length = 188 := fun q hq => h q (List.mem_cons_of_mem p hq)
    have e : (p :: ps).length + n = (ps.length + n) + 1 := by simp only [List.length_cons]; omega
    rw [e, List.flatten_cons, List.append_assoc, parseLoop_cons sink fuel _ _ cur hp, advance]
    cases demuxStep sink fuel cur p with
    | stop exit out => rfl
    | next cur' out =>
      simp only [ih cur' n more hps]
      cases advance sink fuel ps cur' with
      | stop exit' out' => rfl
      | next cur'' out' => simp

/-- Method `Parse` on a stream of whole packets followed by fewer than 188
bytes. -/
theorem Parse_packets (sink : Int → List Byte → Bool) (fuel : Nat) (pkts : List (List Byte))
    (tail : List Byte) (h : ∀ p ∈ pkts, p.length = 188) (ht : tail.length < 188) :
    Parse sink fuel (pkts.flatten ++ tail) =
      match advance sink fuel pkts ⟨[], 0⟩ with
      | .stop exit out => ⟨out, exit⟩
      | .next cur out =>
        ⟨out ++ [Flush .endOfStream cur],
          .ret (if tail.length = 0 then .EOF else .ErrUnexpectedEOF)⟩ := by
  have hn : (pkts.flatten ++ tail).length / MPEGTS_PACKET_SIZE = pkts.length + 0 := by
    rw [List.length_append, length_flatten_packets h, MPEGTS_PACKET_SIZE]
    omega
  rw [Parse, hn, parseLoop_advance sink fuel pkts _ 0 tail h]
  cases advance sink fuel pkts ⟨[], 0⟩ <;> simp [parseLoop]

/-- Method `Parse` on a stream of whole packets. -/
theorem Parse_flatten (sink : Int → List Byte → Bool) (fuel : Nat) (pkts : List (List Byte))
    (h : ∀ p ∈ pkts, p.length = 188) :
    Parse sink fuel pkts.flatten =
      match advance sink fuel pkts ⟨[], 0⟩ with
      | .stop exit out => ⟨out, exit⟩
      | .next cur out => ⟨out ++ [Flush .endOfStream cur], .ret .EOF⟩ := by
  have := Parse_packets sink fuel pkts [] h (by simp)
  simpa using this

theorem exists_packets_of_length_le :
    ∀ (n : Nat) (input : List Byte), input.length ≤ n →
      ∃ (pkts : List (List Byte)) (tail : List Byte),
        input = pkts.flatten ++ tail ∧ (∀ p ∈ pkts, p.length = 188) ∧ tail.length < 188 := by
  intro n
  induction n with
  | zero => intro input h; exact ⟨[], input, by simp, by simp, by omega⟩
  | succ n ih =>
    intro input h
    by_cases hlt : input.length < 188
    · exact ⟨[], input, by simp, by simp, hlt⟩
    · obtain ⟨pkts, tail, he, hp, ht⟩ := ih (input.drop 188) (by rw [List.length_drop]; omega)
      refine ⟨input.take 188 :: pkts, tail, ?_, ?_, ht⟩
      · rw [List.flatten_cons, List.append_assoc, ← he, List.take_append_drop]
      · intro p hp'
        rcases List.mem_cons.mp hp' with rfl | hmem
        · rw [List.length_take]; omega
        · exact hp p hmem

/-- Every stream is a run of whole packets followed by fewer than 188 bytes. -/
theorem exists_packets (input : List Byte) :
    ∃ (pkts : List (List Byte)) (tail : List Byte),
      input = pkts.flatten ++ tail ∧ (∀ p ∈ pkts, p.length = 188) ∧ tail.length < 188 :=
  exists_packets_of_length_le input.length input (le_refl _)

/-- No pass of `advance` leaves `Parse` with `io.EOF`. -/
theorem advance_stop_ne_eof (sink : Int → List Byte → Bool) (fuel : Nat) :
    ∀ (pkts : List (List Byte)) (cur : SegmentBuffer) (e : Run GoError) (out : List FlushEvent),
      advance sink fuel pkts cur = .stop e out → e ≠ .ret .EOF := by
  intro pkts
  induction pkts with
  | nil => intro cur e out h; simp [advance] at h
  | cons p ps ih =>
    intro cur e out h
    rw [advance] at h
    cases hd : demuxStep sink fuel cur p with
    | stop e' out' =>
      rw [hd] at h
      simp only [StepResult.stop.injEq] at h
      rw [← h.1]
      exact demuxStep_stop_ne_eof hd
    | next cur' out' =>
      rw [hd] at h
      simp only at h
      cases ha : advance sink fuel ps cur' with
      | stop e'' out'' =>
        rw [ha] at h
        simp only [StepResult.stop.injEq] at h
        rw [← h.1]
        exact ih cur' e'' out'' ha
      | next c o => rw [ha] at h; simp at h

/-- A run of `Parse` over whole packets that ends with `io.EOF` went through
every packet and then flushed the active segment. -/
theorem Parse_eof {sink : Int → List Byte → Bool} {fuel : Nat} {pkts : List (List Byte)}
    (h : ∀ p ∈ pkts, p.length = 188) (heof : (Parse sink fuel pkts.flatten).exit = .ret .EOF) :
    ∃ cur out, advance sink fuel pkts ⟨[], 0⟩ = .next cur out ∧
      Parse sink fuel pkts.flatten = ⟨out ++ [Flush .endOfStream cur], .ret .EOF⟩ := by
  rw [Parse_flatten sink fuel pkts h] at heof ⊢
  cases ha : advance sink fuel pkts ⟨[], 0⟩ with
  | stop e out =>
    rw [ha] at heof
    exact absurd heof (advance_stop_ne_eof sink fuel pkts _ e out ha)
  | next cur out => exact ⟨cur, out, rfl, rfl⟩

theorem advance_cons_next {sink : Int → List Byte → Bool} {fuel : Nat} {p : List Byte}
    {ps : List (List Byte)} {cur c : SegmentBuffer} {o : List FlushEvent}
    (h : advance sink fuel (p :: ps) cur = .next c o) :
    ∃ c1 o1 o2, demuxStep sink fuel cur p = .next c1 o1 ∧
      advance sink fuel ps c1 = .next c o2 ∧ o = o1 ++ o2 := by
  rw [advance] at h
  cases hd : demuxStep sink fuel cur p with
  | stop e' out' => rw [hd] at h; simp at h
  | next c1 o1 =>
    rw [hd] at h
    simp only at h
    cases ha : advance sink fuel ps c1 with
    | stop e'' out'' => rw [ha] at h; simp at h
    | next c2 o2 =>
      rw [ha] at h
      simp only [StepResult.next.injEq] at h
      exact ⟨c1, o1, o2, rfl, by rw [← h.1]; exact ha, h.2.symm⟩

theorem advance_append_next {sink : Int → List Byte → Bool} {fuel : Nat} :
    ∀ (a b : List (List Byte)) (cur c : SegmentBuffer) (o : List FlushEvent),
      advance sink fuel (a ++ b) cur = .next c o →
      ∃ c1 o1 o2, advance sink fuel a cur = .next c1 o1 ∧
        advance sink fuel b c1 = .next c o2 ∧ o = o1 ++ o2 := by
  intro a
  induction a with
  | nil => intro b cur c o h; exact ⟨cur, [], o, rfl, h, rfl⟩
  | cons p ps ih =>
    intro b cur c o h
    rw [List.cons_append] at h
    obtain ⟨c1, o1, o2, hd, ha, rfl⟩ := advance_cons_next h
    obtain ⟨c2, o3, o4, ha1, ha2, rfl⟩ := ih b c1 c o2 ha
    refine ⟨c2, o1 ++ o3, o4, ?_, ha2, by simp⟩
    simp only [advance, hd, ha1]


/-! ## The iteration allowance

A call that returned or panicked within `fuel` passes does the same with any
larger allowance: only `spin` depends on `fuel`. -/

theorem parseEsLoop_fuel_succ (es : List Byte) :
    ∀ (fuel pos : Nat) (r : Run Bool), parseEsLoop es fuel pos = r → r ≠ .spin →
      parseEsLoop es (fuel + 1) pos = r := by
  intro fuel
  induction fuel with
  | zero => intro pos r h hr; exact absurd h.symm hr
  | succ f ih =>
    intro pos r h hr
    rw [parseEsLoop] at h ⊢
    cases hs : scanLoop es (es.length - 4 - pos) pos with
    | fault => rw [hs] at h; exact h
    | miss => rw [hs] at h; exact h
    | hit p =>
      rw [hs] at h
      simp only at h ⊢
      cases hi : index es p with
      | panic => rw [hi] at h; exact h
      | spin => rw [hi] at h; exact h
      | ret b =>
        rw [hi] at h
        simp only [Run.bind_ret] at h ⊢
        split_ifs at h ⊢
        · exact h
        · exact ih p r h hr
    | through =>
      rw [hs] at h
      simp only at h ⊢
      cases hi : index es pos with
      | panic => rw [hi] at h; exact h
      | spin => rw [hi] at h; exact h
      | ret b =>
        rw [hi] at h
        simp only [Run.bind_ret] at h ⊢
        split_ifs at h ⊢
        · exact h
        · exact ih pos r h hr

theorem parseEs_fuel_mono {fuel : Nat} {es : List Byte} {r : Run Bool}
    (h : parseEs fuel es = r) (hr : r ≠ .spin) (k : Nat) : parseEs (fuel + k) es = r := by
  induction k with
  | zero => exact h
  | succ k ih => exact parseEsLoop_fuel_succ es (fuel + k) 0 r ih hr

theorem Run.bind_stable {α β : Type} {A : Run α} {B B' : α → Run β} {r : Run β}
    (h : A.bind B = r) (hr : r ≠ .spin) (hB : ∀ a, B a = r → B' a = r) : A.bind B' = r := by
  cases A with
  | ret a => exact hB a h
  | panic => exact h
  | spin => exact absurd h.symm hr

theorem parsePes_fuel_mono {fuel : Nat} {p : List Byte} {r : Run (Bool × Int × Option GoError)}
    (h : parsePes fuel p = r) (hr : r ≠ .spin) (k : Nat) : parsePes (fuel + k) p = r := by
  unfold parsePes at h ⊢
  refine Run.bind_stable h hr (fun ok h => ?_)
  split_ifs at h ⊢
  · exact h
  refine Run.bind_stable h hr (fun _ h => ?_)
  refine Run.bind_stable h hr (fun _ h => ?_)
  refine Run.bind_stable h hr (fun _ h => ?_)
  refine Run.bind_stable h hr (fun _ h => ?_)
  refine Run.bind_stable h hr (fun _ h => ?_)
  refine Run.bind_stable h hr (fun _ h => ?_)
  refine Run.bind_stable h hr (fun _ h => ?_)
  refine Run.bind_stable h hr (fun _ h => ?_)
  refine Run.bind_stable h hr (fun es h => ?_)
  cases he : parseEs fuel es with
  | ret b => rw [parseEs_fuel_mono he (by simp) k]; rw [he] at h; exact h
  | panic => rw [parseEs_fuel_mono he (by simp) k]; rw [he] at h; exact h
  | spin => rw [he] at h; exact absurd h.symm hr

theorem Run.orStop_stable {α : Type} {A : Run α} {K K' : α → Verdict} {v : Verdict}
    (h : A.orStop K = v) (hv : v ≠ .stop .spin) (hK : ∀ a, K a = v → K' a = v) :
    A.orStop K' = v := by
  cases A with
  | ret a => exact hK a h
  | panic => exact h
  | spin => exact absurd h.symm hv

/-- The verdict on a packet, once it is not `spin`, is the same with any larger
allowance. -/
theorem examine_fuel_mono {fuel : Nat} {buf : List Byte} {v : Verdict}
    (h : examine fuel buf = v) (hv : v ≠ .stop .spin) (k : Nat) :
    examine (fuel + k) buf = v := by
  unfold examine at h ⊢
  refine Run.orStop_stable h hv (fun header h => ?_)
  refine Run.orStop_stable h hv (fun b0 h => ?_)
  by_cases hsync : b0.val ≠ SYNC_BYTE
  · rw [if_pos hsync] at h ⊢; exact h
  rw [if_neg hsync] at h ⊢
  refine Run.orStop_stable h hv (fun _ h => ?_)
  refine Run.orStop_stable h hv (fun p h => ?_)
  by_cases hroute : (header &&& 0x400000 != 0 && (header &&& 0x1fff00) >>> 8 == 256) = true
  · rw [if_pos hroute] at h ⊢
    cases hp : parsePes fuel p with
    | ret r => rw [parsePes_fuel_mono hp (by simp) k]; rw [hp] at h; exact h
    | panic => rw [parsePes_fuel_mono hp (by simp) k]; rw [hp] at h; exact h
    | spin => rw [hp] at h; exact absurd h.symm hv
  · rw [if_neg hroute] at h ⊢; exact h

theorem parseLoop_fuel_mono (sink : Int → List Byte → Bool) (fuel k : Nat) :
    ∀ (n : Nat) (r : List Byte) (cur : SegmentBuffer),
      (parseLoop sink fuel n r cur).exit ≠ .spin →
      parseLoop sink (fuel + k) n r cur = parseLoop sink fuel n r cur := by
  intro n
  induction n with
  | zero => intro r cur _; rfl
  | succ n ih =>
    intro r cur hne
    rw [parseLoop] at hne ⊢
    rw [parseLoop]
    unfold demuxStep at hne ⊢
    cases hv : examine fuel (r.take MPEGTS_PACKET_SIZE) with
    | stop e =>
      rw [hv] at hne
      have : e ≠ .spin := by simpa using hne
      rw [examine_fuel_mono hv (by simpa using this) k]
    | plain =>
      rw [hv] at hne
      rw [examine_fuel_mono hv (by simp) k]
      simp only at hne ⊢
      rw [ih _ _ hne]
    | key t =>
      rw [hv] at hne
      rw [examine_fuel_mono hv (by simp) k]
      simp only at hne ⊢
      split_ifs at hne ⊢
      · simp only at hne ⊢; rw [ih _ _ hne]
      · rfl
      · simp only at hne ⊢; rw [ih _ _ hne]

/-- A run of `Parse` that ended within the allowance `fuel`, by an error return
or a panic, is the same run with any larger allowance. -/
theorem Parse_fuel_mono (sink : Int → List Byte → Bool) (fuel k : Nat) (input : List Byte)
    (h : (Parse sink fuel input).exit ≠ .spin) :
    Parse sink (fuel + k) input = Parse sink fuel input :=
  parseLoop_fuel_mono sink fuel k _ input _ h

/-- A stream whose length is a multiple of 188 is a run of whole packets. -/
theorem exists_whole_packets (input : List Byte) (h : input.length % 188 = 0) :
    ∃ pkts : List (List Byte), input = pkts.flatten ∧ ∀ p ∈ pkts, p.length = 188 := by
  obtain ⟨pkts, tail, he, hp, ht⟩ := exists_packets input
  have hl := congrArg List.length he
  rw [List.length_append, length_flatten_packets hp] at hl
  have h0 : tail = [] := List.length_eq_zero.mp (by omega)
  exact ⟨pkts, by simpa [h0] using he, hp⟩

/-! ## Claims on the segmentation -/

/-- Packets that are not key frames are appended to the active segment and
nothing is flushed. -/
theorem advance_plain_run {sink : Int → List Byte → Bool} {fuel : Nat} :
    ∀ (ps : List (List Byte)) (cur c : SegmentBuffer) (o : List FlushEvent),
      (∀ p ∈ ps, ∀ t, examine fuel p ≠ .key t) →
      advance sink fuel ps cur = .next c o →
      c = ⟨cur.buf ++ ps.flatten, cur.Pts⟩ ∧ o = [] := by
  intro ps
  induction ps with
  | nil =>
    intro cur c o _ h
    simp only [advance, StepResult.next.injEq] at h
    simp [← h.1, ← h.2]
  | cons p ps ih =>
    intro cur c o hplain h
    obtain ⟨c1, o1, o2, hd, ha, rfl⟩ := advance_cons_next h
    cases hv : examine fuel p with
    | stop e => rw [demuxStep_stop cur hv] at hd; simp at hd
    | key t => exact absurd hv (hplain p (List.mem_cons_self p ps) t)
    | plain =>
      rw [demuxStep_plain cur hv] at hd
      simp only [StepResult.next.injEq] at hd
      obtain ⟨rfl, rfl⟩ := hd
      obtain ⟨rfl, rfl⟩ := ih _ c o2 (fun q hq => hplain q (List.mem_cons_of_mem p hq)) ha
      simp

/-- While the active segment has a non-zero `Pts` and no key frame carries the
timestamp 0, nothing is lost: the flushed bytes followed by the active segment
are the segment at the start followed by the packets read. -/
theorem advance_lossless {sink : Int → List Byte → Bool} {fuel : Nat} :
    ∀ (ps : List (List Byte)) (cur c : SegmentBuffer) (o : List FlushEvent),
      cur.Pts ≠ 0 → (∀ p ∈ ps, examine fuel p ≠ .key 0) →
      advance sink fuel ps cur = .next c o →
      (o.map FlushEvent.bytes).flatten ++ c.buf = cur.buf ++ ps.flatten ∧ c.Pts ≠ 0 := by
  intro ps
  induction ps with
  | nil =>
    intro cur c o hcur _ h
    simp only [advance, StepResult.next.injEq] at h
    obtain ⟨rfl, rfl⟩ := h
    simp [hcur]
  | cons p ps ih =>
    intro cur c o hcur hpts h
    obtain ⟨c1, o1, o2, hd, ha, rfl⟩ := advance_cons_next h
    have hps : ∀ q ∈ ps, examine fuel q ≠ .key 0 := fun q hq => hpts q (List.mem_cons_of_mem p hq)
    cases hv : examine fuel p with
    | stop e => rw [demuxStep_stop cur hv] at hd; simp at hd
    | plain =>
      rw [demuxStep_plain cur hv] at hd
      simp only [StepResult.next.injEq] at hd
      obtain ⟨rfl, rfl⟩ := hd
      obtain ⟨h1, h2⟩ := ih ⟨cur.buf ++ p, cur.Pts⟩ c o2 hcur hps ha
      exact ⟨by simpa using h1, h2⟩
    | key t =>
      have ht : t ≠ 0 := fun h0 => hpts p (List.mem_cons_self p ps) (h0 ▸ hv)
      cases hs : sink cur.Pts cur.buf with
      | false => rw [demuxStep_key_write_error hv hcur hs] at hd; simp at hd
      | true =>
        rw [demuxStep_key_flush hv hcur hs] at hd
        simp only [StepResult.next.injEq] at hd
        obtain ⟨rfl, rfl⟩ := hd
        obtain ⟨h1, h2⟩ := ih ⟨p, t⟩ c o2 ht hps ha
        refine ⟨?_, h2⟩
        simp only [List.map_append, List.map_cons, List.map_nil, List.flatten_append,
          List.flatten_cons, List.flatten_nil, List.append_nil, List.append_assoc, Flush]
        rw [h1]

/-- C1 (as amended). For every input made of whole 188-byte packets that
`Parse` processes to end-of-stream, in which the first packet is detected as a
key frame and no detected key frame has PTS 0, the concatenation in flush order
of the bytes of all flushed segments equals the input exactly. -/
theorem C1_round_trip (sink : Int → List Byte → Bool) (fuel : Nat) (pkts : List (List Byte))
    (hlen : ∀ p ∈ pkts, p.length = 188)
    (heof : (Parse sink fuel pkts.flatten).exit = .ret .EOF)
    (hfirst : ∀ p0, pkts.head? = some p0 → ∃ t, examine fuel p0 = .key t)
    (hpts : ∀ p ∈ pkts, examine fuel p ≠ .key 0) :
    ((Parse sink fuel pkts.flatten).flushes.map FlushEvent.bytes).flatten = pkts.flatten := by
  obtain ⟨cur, out, ha, hP⟩ := Parse_eof hlen heof
  rw [hP]
  cases pkts with
  | nil =>
    simp only [advance, StepResult.next.injEq] at ha
    obtain ⟨rfl, rfl⟩ := ha
    simp [Flush]
  | cons p0 rest =>
    obtain ⟨t, ht⟩ := hfirst p0 rfl
    have ht0 : t ≠ 0 := fun h0 => hpts p0 (List.mem_cons_self p0 rest) (h0 ▸ ht)
    obtain ⟨c1, o1, o2, hd, ha2, rfl⟩ := advance_cons_next ha
    rw [demuxStep_key_first ht rfl] at hd
    simp only [StepResult.next.injEq] at hd
    obtain ⟨rfl, rfl⟩ := hd
    obtain ⟨h1, -⟩ := advance_lossless rest _ cur o2 ht0
      (fun q hq => hpts q (List.mem_cons_of_mem p0 hq)) ha2
    simp only [List.nil_append, List.map_append, List.map_cons, List.map_nil,
      List.flatten_append, List.flatten_cons, List.flatten_nil, List.append_nil, Flush]
    exact h1

/-- C3. For every input of whole 188-byte packets that `Parse` processes to
end-of-stream and in which exactly one packet, `kf`, is detected as a key
frame, `Parse` makes exactly one call of `Flush`, the one at end-of-stream; its
identifier is the PTS of `kf` and its bytes are `kf` followed by every later
packet. -/
theorem C3_single_key_frame (sink : Int → List Byte → Bool) (fuel : Nat)
    (pre post : List (List Byte)) (kf : List Byte) (pts : Int)
    (hlen : ∀ p ∈ pre ++ kf :: post, p.length = 188)
    (hkey : examine fuel kf = .key pts)
    (hplain : ∀ p ∈ pre ++ post, ∀ t, examine fuel p ≠ .key t)
    (heof : (Parse sink fuel (pre ++ kf :: post).flatten).exit = .ret .EOF) :
    Parse sink fuel (pre ++ kf :: post).flatten =
      ⟨[⟨.endOfStream, pts, kf ++ post.flatten⟩], .ret .EOF⟩ := by
  obtain ⟨cur, out, ha, hP⟩ := Parse_eof hlen heof
  rw [hP]
  obtain ⟨c1, o1, o2, ha1, ha2, rfl⟩ := advance_append_next pre (kf :: post) _ cur out ha
  obtain ⟨rfl, rfl⟩ := advance_plain_run pre _ c1 o1
    (fun p hp => hplain p (List.mem_append_left post hp)) ha1
  obtain ⟨c2, o3, o4, hd, ha3, rfl⟩ := advance_cons_next ha2
  rw [demuxStep_key_first hkey rfl] at hd
  simp only [StepResult.next.injEq] at hd
  obtain ⟨rfl, rfl⟩ := hd
  obtain ⟨rfl, rfl⟩ := advance_plain_run post _ cur o4
    (fun p hp => hplain p (List.mem_append_right pre hp)) ha3
  simp [Flush]


/-- With a sink that accepts every write, a non-zero `Pts` in the active
segment and only key frames with non-zero timestamps, every packet closes the
segment before it: the segments flushed, followed by the active one, are the
segment at the start and then the packets one by one. -/
theorem advance_all_keys (sink : Int → List Byte → Bool) (fuel : Nat)
    (hsink : ∀ t b, sink t b = true) :
    ∀ (ps : List (List Byte)) (cur : SegmentBuffer),
      cur.Pts ≠ 0 → (∀ p ∈ ps, ∃ t, t ≠ 0 ∧ examine fuel p = .key t) →
      ∃ c o, advance sink fuel ps cur = .next c o ∧ c.Pts ≠ 0 ∧
        o.map FlushEvent.bytes ++ [c.buf] = cur.buf :: ps ∧
        o.map FlushEvent.site = List.replicate ps.length .keyFrame := by
  intro ps
  induction ps with
  | nil => intro cur hcur _; exact ⟨cur, [], rfl, hcur, rfl, rfl⟩
  | cons p ps ih =>
    intro cur hcur hkey
    obtain ⟨t, ht, hv⟩ := hkey p (List.mem_cons_self p ps)
    obtain ⟨c, o, ha, hc, hb, hs⟩ := ih ⟨p, t⟩ ht
      (fun q hq => hkey q (List.mem_cons_of_mem p hq))
    refine ⟨c, [Flush .keyFrame cur] ++ o, ?_, hc, ?_, ?_⟩
    · simp only [advance, demuxStep_key_flush hv hcur (hsink _ _), ha]
    · simpa [Flush] using hb
    · simp [Flush, hs, List.replicate_succ]

/-- C2 (as amended). For every N >= 1 and every input made of exactly N
188-byte packets, each detected as a key frame (sync byte `47`,
payload-unit-start set, PID 256, `parsePes` reports a key frame) with a PTS
other than 0 (the values need not be distinct), and with every write of a
segment succeeding, `Parse` reaches end-of-stream and makes exactly N calls of
`Flush`: one at each key frame after the first, and the last at end-of-stream;
the N segments are the N packets. -/
theorem C2_flush_count (sink : Int → List Byte → Bool) (fuel : Nat) (pkts : List (List Byte))
    (hsink : ∀ t b, sink t b = true)
    (hN : 1 ≤ pkts.length)
    (hlen : ∀ p ∈ pkts, p.length = 188)
    (hkey : ∀ p ∈ pkts, ∃ t, t ≠ 0 ∧ examine fuel p = .key t) :
    (Parse sink fuel pkts.flatten).exit = .ret .EOF ∧
    (Parse sink fuel pkts.flatten).flushes.length = pkts.length ∧
    (Parse sink fuel pkts.flatten).flushes.map FlushEvent.bytes = pkts ∧
    (Parse sink fuel pkts.flatten).flushes.map FlushEvent.site =
      List.replicate (pkts.length - 1) .keyFrame ++ [.endOfStream] := by
  cases pkts with
  | nil => simp at hN
  | cons p0 rest =>
    obtain ⟨t, ht, hv⟩ := hkey p0 (List.mem_cons_self p0 rest)
    obtain ⟨c, o, ha, -, hb, hs⟩ := advance_all_keys sink fuel hsink rest ⟨p0, t⟩ ht
      (fun q hq => hkey q (List.mem_cons_of_mem p0 hq))
    have hadv : advance sink fuel (p0 :: rest) ⟨[], 0⟩ = .next c o := by
      have hd : demuxStep sink fuel ⟨[], 0⟩ p0 = .next ⟨p0, t⟩ [] := demuxStep_key_first hv rfl
      simp only [advance, hd, ha, List.nil_append]
    have hbytes : (o ++ [Flush .endOfStream c]).map FlushEvent.bytes = p0 :: rest := by
      simpa [Flush] using hb
    rw [Parse_flatten sink fuel (p0 :: rest) hlen, hadv]
    refine ⟨rfl, ?_, hbytes, ?_⟩
    · have := congrArg List.length hbytes
      simpa using this
    · simp [hs, Flush]

/-- C4. When the packets `pre` are processed without error (alone they take
`Parse` to end-of-stream) and the next 188-byte packet `bad` has a first byte
other than `47`, `Parse` returns the sync-byte error whatever follows, and its
calls of `Flush` are exactly those made for `pre` before the end-of-stream
flush: nothing is flushed at or after the bad packet, the active segment
included. -/
theorem C4_framing_error (sink : Int → List Byte → Bool) (fuel : Nat)
    (pre : List (List Byte)) (bad rest : List Byte)
    (hlen : ∀ p ∈ pre, p.length = 188)
    (hbad : bad.length = 188)
    (hsync : bad[0]? ≠ some 0x47)
    (hpre : (Parse sink fuel pre.flatten).exit = .ret .EOF) :
    (Parse sink fuel (pre.flatten ++ bad ++ rest)).exit = .ret .syncByte ∧
    ∃ cur, (Parse sink fuel pre.flatten).flushes =
      (Parse sink fuel (pre.flatten ++ bad ++ rest)).flushes ++ [Flush .endOfStream cur] := by
  obtain ⟨cur, out, ha, hP⟩ := Parse_eof hlen hpre
  have hn : (pre.flatten ++ bad ++ rest).length / MPEGTS_PACKET_SIZE
      = pre.length + (rest.length / 188 + 1) := by
    rw [List.length_append, List.length_append, length_flatten_packets hlen, hbad,
      MPEGTS_PACKET_SIZE]
    omega
  have hrun : Parse sink fuel (pre.flatten ++ bad ++ rest) = ⟨out, .ret .syncByte⟩ := by
    rw [Parse, hn, List.append_assoc, parseLoop_advance sink fuel pre _ _ _ hlen, ha]
    simp only [parseLoop_cons sink fuel _ rest cur hbad,
      demuxStep_stop cur (examine_bad_sync fuel hbad hsync), List.append_nil]
  rw [hrun, hP]
  exact ⟨rfl, cur, rfl⟩


theorem SegmentOf.nil (fuel : Nat) (Pts : Int) : SegmentOf fuel [] Pts :=
  ⟨fun p hp => by simp at hp, fun p0 t h => by simp at h⟩

/-- A key frame opens a segment tagged with its timestamp. -/
theorem SegmentOf.single {fuel : Nat} {p : List Byte} {t : Int}
    (h : examine fuel p = .key t) : SegmentOf fuel [p] t := by
  refine ⟨fun q hq => by simp at hq, fun p0 t' h0 h1 => ?_⟩
  simp only [List.head?_cons, Option.some.injEq] at h0
  subst h0
  rw [h] at h1
  exact Verdict.key.inj h1

/-- A packet that is not a key frame extends the segment. -/
theorem SegmentOf.snoc {fuel : Nat} {seg : List (List Byte)} {Pts : Int} {p : List Byte}
    (hs : SegmentOf fuel seg Pts) (h : ∀ t, examine fuel p ≠ .key t) :
    SegmentOf fuel (seg ++ [p]) Pts := by
  cases seg with
  | nil =>
    refine ⟨fun q hq => by simp at hq, fun p0 t h0 h1 => ?_⟩
    simp only [List.nil_append, List.head?_cons, Option.some.injEq] at h0
    subst h0
    exact absurd h1 (h t)
  | cons a seg =>
    refine ⟨fun q hq t => ?_, fun p0 t h0 h1 => hs.2 p0 t (by simpa using h0) h1⟩
    simp only [List.cons_append, List.tail_cons, List.mem_append, List.mem_singleton] at hq
    rcases hq with hq | rfl
    · exact hs.1 q (by simpa using hq) t
    · exact h t

/-- The invariant of the loop: the active segment is a run of the packets read
so far in the shape `SegmentOf`, and so is every segment flushed. -/
theorem advance_flushed_runs (sink : Int → List Byte → Bool) (fuel : Nat) :
    ∀ (ps pre seg : List (List Byte)) (cur : SegmentBuffer),
      cur.buf = seg.flatten → SegmentOf fuel seg cur.Pts →
      (∀ c o, advance sink fuel ps cur = .next c o →
        (∀ e ∈ o, FlushedRun fuel (pre ++ seg ++ ps) e) ∧
        ∃ pre' seg', pre ++ seg ++ ps = pre' ++ seg' ∧ c.buf = seg'.flatten ∧
          SegmentOf fuel seg' c.Pts) ∧
      (∀ x o, advance sink fuel ps cur = .stop x o →
        ∀ e ∈ o, FlushedRun fuel (pre ++ seg ++ ps) e) := by
  intro ps
  induction ps with
  | nil =>
    intro pre seg cur hbuf hseg
    refine ⟨fun c o h => ?_, fun x o h => by simp [advance] at h⟩
    simp only [advance, StepResult.next.injEq] at h
    obtain ⟨rfl, rfl⟩ := h
    exact ⟨fun e he => by simp at he, pre, seg, by simp, hbuf, hseg⟩
  | cons p ps ih =>
    intro pre seg cur hbuf hseg
    have hcur : FlushedRun fuel (pre ++ seg ++ p :: ps) (Flush .keyFrame cur) :=
      ⟨pre, seg, p :: ps, rfl, hbuf, hseg⟩
    cases hv : examine fuel p with
    | stop x =>
      simp only [advance, demuxStep_stop cur hv]
      exact ⟨fun c o h => by simp at h, fun x' o h => by
        simp only [StepResult.stop.injEq] at h
        rw [← h.2]; simp⟩
    | plain =>
      have e1 : pre ++ seg ++ p :: ps = pre ++ (seg ++ [p]) ++ ps := by simp
      have IH := ih pre (seg ++ [p]) ⟨cur.buf ++ p, cur.Pts⟩ (by simp [hbuf])
        (hseg.snoc (fun t => by rw [hv]; simp))
      simp only [advance, demuxStep_plain cur hv, List.nil_append]
      rw [e1]
      cases ha : advance sink fuel ps ⟨cur.buf ++ p, cur.Pts⟩ with
      | stop x o =>
        refine ⟨fun c o' h => by simp at h, fun x' o' h => ?_⟩
        simp only [StepResult.stop.injEq] at h
        rw [← h.2]
        exact IH.2 x o ha
      | next c o =>
        refine ⟨fun c' o' h => ?_, fun x' o' h => by simp at h⟩
        simp only [StepResult.next.injEq] at h
        rw [← h.1, ← h.2]
        exact IH.1 c o ha
    | key t =>
      have e1 : pre ++ seg ++ p :: ps = (pre ++ seg) ++ [p] ++ ps := by simp
      have IH := ih (pre ++ seg) [p] ⟨p, t⟩ (by simp) (SegmentOf.single hv)
      by_cases h0 : cur.Pts = 0
      · simp only [advance, demuxStep_key_first hv h0, List.nil_append]
        rw [e1]
        cases ha : advance sink fuel ps ⟨p, t⟩ with
        | stop x o =>
          refine ⟨fun c o' h => by simp at h, fun x' o' h => ?_⟩
          simp only [StepResult.stop.injEq] at h
          rw [← h.2]
          exact IH.2 x o ha
        | next c o =>
          refine ⟨fun c' o' h => ?_, fun x' o' h => by simp at h⟩
          simp only [StepResult.next.injEq] at h
          rw [← h.1, ← h.2]
          exact IH.1 c o ha
      · cases hs : sink cur.Pts cur.buf with
        | false =>
          simp only [advance, demuxStep_key_write_error hv h0 hs]
          refine ⟨fun c o h => by simp at h, fun x' o h e he => ?_⟩
          simp only [StepResult.stop.injEq] at h
          rw [← h.2, List.mem_singleton] at he
          rw [he]; exact hcur
        | true =>
          simp only [advance, demuxStep_key_flush hv h0 hs]
          rw [e1] at hcur ⊢
          cases ha : advance sink fuel ps ⟨p, t⟩ with
          | stop x o =>
            refine ⟨fun c o' h => by simp at h, fun x' o' h e he => ?_⟩
            simp only [StepResult.stop.injEq] at h
            rw [← h.2, List.mem_append, List.mem_singleton] at he
            rcases he with he | he
            · rw [he]; exact hcur
            · exact IH.2 x o ha e he
          | next c o =>
            refine ⟨fun c' o' h => ?_, fun x' o' h => by simp at h⟩
            simp only [StepResult.next.injEq] at h
            rw [← h.1, ← h.2]
            refine ⟨fun e he => ?_, (IH.1 c o ha).2⟩
            rw [List.mem_append, List.mem_singleton] at he
            rcases he with he | he
            · rw [he]; exact hcur
            · exact (IH.1 c o ha).1 e he

/-- C5. Every segment flushed by `Parse`, on any input, is a contiguous run
`seg` of whole 188-byte packets of the input, starting at a multiple of 188.
Only its first packet can be a detected key frame, so a segment that contains a
key-frame packet begins with it and contains no other, and then the identifier
of the segment is the PTS that `parsePes` returned for that packet. -/
theorem C5_segment_tagging (sink : Int → List Byte → Bool) (fuel : Nat) (input : List Byte)
    (e : FlushEvent) (he : e ∈ (Parse sink fuel input).flushes) :
    ∃ (pre seg : List (List Byte)) (post : List Byte),
      input = pre.flatten ++ seg.flatten ++ post ∧
      (∀ p ∈ pre ++ seg, p.length = 188) ∧
      e.bytes = seg.flatten ∧
      (∀ p ∈ seg.tail, ∀ t, examine fuel p ≠ .key t) ∧
      (∀ p0 t, seg.head? = some p0 → examine fuel p0 = .key t → e.Pts = t) := by
  obtain ⟨pkts, tail, rfl, hlen, htail⟩ := exists_packets input
  have hinv := advance_flushed_runs sink fuel pkts [] [] ⟨[], 0⟩ rfl
    (SegmentOf.nil fuel 0)
  simp only [List.append_nil, List.nil_append] at hinv
  have key : FlushedRun fuel pkts e := by
    rw [Parse_packets sink fuel pkts tail hlen htail] at he
    cases ha : advance sink fuel pkts ⟨[], 0⟩ with
    | stop x o =>
      rw [ha] at he
      exact hinv.2 x o ha e he
    | next c o =>
      rw [ha] at he
      simp only [List.mem_append, List.mem_singleton] at he
      rcases he with he | he
      · exact (hinv.1 c o ha).1 e he
      · obtain ⟨pre', seg', h1, h2, h3⟩ := (hinv.1 c o ha).2
        exact ⟨pre', seg', [], by simpa using h1, by rw [he]; exact h2, by rw [he]; exact h3⟩
  obtain ⟨pre, seg, post, rfl, hb, hs⟩ := key
  refine ⟨pre, seg, post.flatten ++ tail, by simp, ?_, hb, hs.1, hs.2⟩
  intro p hp
  exact hlen p (List.mem_append_left post hp)


/-! ## Concrete runs -/

theorem examine_samplePacket_3 (fuel : Nat) :
    examine (fuel + 1) (samplePacket 3 0x65) = .key 1 := by
  set_option maxRecDepth 100000 in rfl

theorem examine_samplePacket_5 (fuel : Nat) :
    examine (fuel + 1) (samplePacket 5 0x65) = .key 2 := by
  set_option maxRecDepth 100000 in rfl

theorem examine_samplePacket_1 (fuel : Nat) :
    examine (fuel + 1) (samplePacket 1 0x65) = .key 0 := by
  set_option maxRecDepth 100000 in rfl

theorem examine_otherPidPacket (fuel : Nat) : examine fuel otherPidPacket = .plain := by
  set_option maxRecDepth 100000 in rfl

theorem examine_samplePacket_non_idr : examine 4 (samplePacket 9 0x41) = .plain := by
  set_option maxRecDepth 100000 in decide

set_option maxRecDepth 100000 in
/-- C1, witness: a key frame, a packet of another PID and a second key frame
come back whole, as two segments. -/
theorem C1_round_trip_witness :
    ((Parse acceptAll 1 [samplePacket 3 0x65, otherPidPacket, samplePacket 5 0x65].flatten).flushes.map
        FlushEvent.bytes).flatten
      = [samplePacket 3 0x65, otherPidPacket, samplePacket 5 0x65].flatten :=
  C1_round_trip acceptAll 1 [samplePacket 3 0x65, otherPidPacket, samplePacket 5 0x65]
    (by decide) (by decide)
    (fun p0 h => ⟨1, by
      simp only [List.head?_cons, Option.some.injEq] at h
      rw [← h]; exact examine_samplePacket_3 0⟩)
    (by decide)

set_option maxRecDepth 100000 in
/-- C1 as stated fails: the 376-byte input `otherPidPacket ++ samplePacket 3 65`
is processed to end-of-stream, and the only segment flushed is the second
packet; the first packet, accumulated under `Pts = 0`, is dropped by the
`Reset` at the key frame without a flush. The same happens to a first key
frame whose PTS is 0: of `samplePacket 1 65 ++ samplePacket 3 65` only the
second packet is flushed. -/
theorem C1_counterexample_leading_packet :
    (otherPidPacket ++ samplePacket 3 0x65).length = 2 * 188 ∧
    (∀ sink fuel, Parse sink (fuel + 1) (otherPidPacket ++ samplePacket 3 0x65) =
      ⟨[⟨.endOfStream, 1, samplePacket 3 0x65⟩], .ret .EOF⟩) ∧
    ((Parse acceptAll 1 (otherPidPacket ++ samplePacket 3 0x65)).flushes.map
        FlushEvent.bytes).flatten ≠ otherPidPacket ++ samplePacket 3 0x65 ∧
    (samplePacket 1 0x65 ++ samplePacket 3 0x65).length = 2 * 188 ∧
    (∀ sink fuel, Parse sink (fuel + 1) (samplePacket 1 0x65 ++ samplePacket 3 0x65) =
      ⟨[⟨.endOfStream, 1, samplePacket 3 0x65⟩], .ret .EOF⟩) ∧
    ((Parse acceptAll 1 (samplePacket 1 0x65 ++ samplePacket 3 0x65)).flushes.map
        FlushEvent.bytes).flatten ≠ samplePacket 1 0x65 ++ samplePacket 3 0x65 :=
  ⟨by decide, fun _ _ => rfl, by decide, by decide, fun _ _ => rfl, by decide⟩

set_option maxRecDepth 100000 in
/-- C2, witness: two key frames with timestamps 1 and 2 give two flushes. -/
theorem C2_flush_count_witness :
    (Parse acceptAll 1 [samplePacket 3 0x65, samplePacket 5 0x65].flatten).exit = .ret .EOF ∧
    (Parse acceptAll 1 [samplePacket 3 0x65, samplePacket 5 0x65].flatten).flushes.length = 2 ∧
    (Parse acceptAll 1 [samplePacket 3 0x65, samplePacket 5 0x65].flatten).flushes.map
        FlushEvent.bytes = [samplePacket 3 0x65, samplePacket 5 0x65] ∧
    (Parse acceptAll 1 [samplePacket 3 0x65, samplePacket 5 0x65].flatten).flushes.map
        FlushEvent.site = [.keyFrame, .endOfStream] :=
  C2_flush_count acceptAll 1 [samplePacket 3 0x65, samplePacket 5 0x65]
    (fun _ _ => rfl) (by decide) (by decide)
    (fun p hp => by
      simp only [List.mem_cons, List.mem_singleton, List.not_mem_nil, or_false] at hp
      rcases hp with rfl | rfl
      · exact ⟨1, by decide, examine_samplePacket_3 0⟩
      · exact ⟨2, by decide, examine_samplePacket_5 0⟩)

set_option maxRecDepth 100000 in
/-- C2 as stated fails: the two packets `samplePacket 1 65` and
`samplePacket 3 65` are key frames on PID 256 with the distinct timestamps 0
and 1, yet `Parse` flushes once, not twice: at the second key frame the active
segment has `Pts = 0`, so it is reset without a flush. -/
theorem C2_counterexample_zero_pts :
    (samplePacket 1 0x65).length = 188 ∧ (samplePacket 3 0x65).length = 188 ∧
    (∀ fuel, examine (fuel + 1) (samplePacket 1 0x65) = .key 0) ∧
    (∀ fuel, examine (fuel + 1) (samplePacket 3 0x65) = .key 1) ∧
    (∀ sink fuel, Parse sink (fuel + 1) [samplePacket 1 0x65, samplePacket 3 0x65].flatten =
      ⟨[⟨.endOfStream, 1, samplePacket 3 0x65⟩], .ret .EOF⟩) ∧
    (Parse acceptAll 1 [samplePacket 1 0x65, samplePacket 3 0x65].flatten).flushes.length ≠ 2 :=
  ⟨by decide, by decide, examine_samplePacket_1, examine_samplePacket_3, fun _ _ => rfl,
    by decide⟩

set_option maxRecDepth 100000 in
/-- C3, witness: a packet of another PID, one key frame with timestamp 1, and a
unit that is not a key frame give the single end-of-stream flush of the last
two packets. -/
theorem C3_single_key_frame_witness :
    Parse acceptAll 4
        ([otherPidPacket] ++ samplePacket 3 0x65 :: [samplePacket 9 0x41]).flatten =
      ⟨[⟨.endOfStream, 1, samplePacket 3 0x65 ++ [samplePacket 9 0x41].flatten⟩], .ret .EOF⟩ :=
  C3_single_key_frame acceptAll 4 [otherPidPacket] [samplePacket 9 0x41] (samplePacket 3 0x65) 1
    (by decide) (examine_samplePacket_3 3)
    (fun p hp t => by
      simp only [List.singleton_append, List.mem_cons, List.mem_singleton, List.not_mem_nil,
        or_false] at hp
      rcases hp with rfl | rfl
      · rw [examine_otherPidPacket]; simp
      · rw [examine_samplePacket_non_idr]; simp)
    (by decide)

set_option maxRecDepth 100000 in
/-- C4, witness: after one key frame, a packet that starts with `00` ends
`Parse` with the sync-byte error and without any flush. -/
theorem C4_framing_error_witness :
    (Parse acceptAll 1 ([samplePacket 3 0x65].flatten ++ pad188 [0x00] ++ [0x47, 0x00])).exit
      = .ret .syncByte ∧
    ∃ cur, (Parse acceptAll 1 [samplePacket 3 0x65].flatten).flushes =
      (Parse acceptAll 1 ([samplePacket 3 0x65].flatten ++ pad188 [0x00] ++ [0x47, 0x00])).flushes
        ++ [Flush .endOfStream cur] :=
  C4_framing_error acceptAll 1 [samplePacket 3 0x65] (pad188 [0x00]) [0x47, 0x00]
    (by decide) (by decide) (by decide) (by decide)

set_option maxRecDepth 100000 in
/-- C5, witness: in the run on two key frames with a packet of another PID
between them and one stray byte at the end, the segment flushed at the second
key frame is the first two packets, tagged with the timestamp 1 of the first. -/
theorem C5_segment_tagging_witness :
    ∃ (pre seg : List (List Byte)) (post : List Byte),
      samplePacket 3 0x65 ++ otherPidPacket ++ samplePacket 5 0x65 ++ [0x47]
        = pre.flatten ++ seg.flatten ++ post ∧
      (∀ p ∈ pre ++ seg, p.length = 188) ∧
      samplePacket 3 0x65 ++ otherPidPacket = seg.flatten ∧
      (∀ p ∈ seg.tail, ∀ t, examine 1 p ≠ .key t) ∧
      (∀ p0 t, seg.head? = some p0 → examine 1 p0 = .key t → (1 : Int) = t) :=
  C5_segment_tagging acceptAll 1
    (samplePacket 3 0x65 ++ otherPidPacket ++ samplePacket 5 0x65 ++ [0x47])
    ⟨.keyFrame, 1, samplePacket 3 0x65 ++ otherPidPacket⟩ (by decide)


/-! ## Claims on the PES parser and the NAL scanner -/

/-- An elementary stream that opens with `00 00 00 01` and an IDR type byte is
a key frame at the first pass of the outer loop. -/
theorem parseEs_four_byte_idr (fuel : Nat) (t : Byte) (tail : List Byte)
    (ht : t.val &&& 0x1F = 5) :
    parseEs (fuel + 1) (0x00 :: 0x00 :: 0x00 :: 0x01 :: t :: tail) = .ret true := by
  have hn : (0x00 :: 0x00 :: 0x00 :: 0x01 :: t :: tail : List Byte).length - 4 - 0
      = tail.length + 1 := by simp
  rw [parseEs, parseEsLoop, hn, scanLoop_succ _ (by simp)]
  simp [StartCodeAt, StartCode4At, ht]

theorem exists_header_of_length {p : List Byte} (h : 9 ≤ p.length) :
    ∃ a0 a1 a2 a3 a4 a5 a6 a7 a8 rest, p = a0 :: a1 :: a2 :: a3 :: a4 :: a5 :: a6 :: a7 :: a8 :: rest := by
  match p, h with
  | a0 :: a1 :: a2 :: a3 :: a4 :: a5 :: a6 :: a7 :: a8 :: rest, _ =>
    exact ⟨a0, a1, a2, a3, a4, a5, a6, a7, a8, rest, rfl⟩

/-- C7 (as amended). For every PES payload `p` that begins with `00 00 01` and
whose elementary stream, the bytes of `p` from offset `9 + p[8]`, begins with
`00 00 00 01` followed by a byte `t` whose low 5 bits equal 5, `parsePes`
returns key-frame = true with no error whatever bytes follow, provided `p` has
at least 19 bytes whenever bit `0x40` of `p[6]` (bit `0x4000` of the flags
word, which makes `parsePes` decode a DTS at offset 14) is set. -/
theorem C7_key_frame_after_four_byte_start_code (fuel : Nat) (p : List Byte) (hl t : Byte)
    (tail : List Byte)
    (h3 : p.take 3 = [0x00, 0x00, 0x01])
    (h8 : p[8]? = some hl)
    (hes : p.drop (9 + hl.val) = 0x00 :: 0x00 :: 0x00 :: 0x01 :: t :: tail)
    (ht : t.val % 32 = 5)
    (hdts : p.length < 19 → ∀ f, p[6]? = some f → f.val &&& 0x40 = 0) :
    ∃ pts, parsePes (fuel + 1) p = .ret (true, pts, none) := by
  have hlen : 9 + hl.val + (5 + tail.length) = p.length := by
    have := congrArg List.length hes
    simp only [List.length_drop, List.length_cons] at this
    omega
  obtain ⟨a0, a1, a2, a3, a4, a5, a6, a7, a8, rest, rfl⟩ :=
    exists_header_of_length (p := p) (by omega)
  simp only [List.take_succ_cons, List.take_zero, List.cons.injEq, and_true] at h3
  obtain ⟨rfl, rfl, rfl⟩ := h3
  have h8 : a8 = hl := by simpa using h8
  subst h8
  have hrest : rest.drop a8.val = 0x00 :: 0x00 :: 0x00 :: 0x01 :: t :: tail := by
    rw [← hes, Nat.add_comm]; rfl
  have hrl : a8.val + (5 + tail.length) = rest.length := by
    simp only [List.length_cons] at hlen; omega
  rw [parsePes_header]
  obtain ⟨v, hv⟩ := parsePesPtsDts_of_length (q := rest) (by omega)
  have hpts : ∃ pts, (if (a6.val * 256 + a7.val) &&& 0x8000 ≠ 0 then parsePesPtsDts rest
      else Run.ret 0) = .ret pts := by
    split_ifs
    · exact ⟨v, hv⟩
    · exact ⟨0, rfl⟩
  have hd : ∃ dts, (if (a6.val * 256 + a7.val) &&& 0x4000 ≠ 0 then
      (sliceFrom rest 5).bind parsePesPtsDts else Run.ret 0) = .ret dts := by
    split_ifs with hflag
    · have h19 : 10 ≤ rest.length := by
        by_contra hshort
        have h6 := hdts (by simp only [List.length_cons]; omega) a6 (by simp)
        exact hflag ((word_and_4000 a6 a7).mpr h6)
      obtain ⟨d, hd⟩ := parsePesPtsDts_of_length (q := rest.drop 5)
        (by rw [List.length_drop]; omega)
      exact ⟨d, by rw [sliceFrom_of_le (by omega), Run.bind_ret, hd]⟩
    · exact ⟨0, rfl⟩
  obtain ⟨pts, hpts⟩ := hpts
  obtain ⟨dts, hd⟩ := hd
  refine ⟨pts, ?_⟩
  rw [hpts, hd, Run.bind_ret, Run.bind_ret, sliceFrom_of_le (by omega), Run.bind_ret, hrest,
    parseEs_four_byte_idr fuel t tail (by rw [and_1F_eq_mod]; exact ht), Run.bind_ret]

/-- C7, witness: the 20-byte payload `pesKeyFrame` (header length 5, elementary
stream `00 00 00 01 65 AA`) is a key frame. -/
theorem C7_key_frame_after_four_byte_start_code_witness :
    pesKeyFrame.take 3 = [0x00, 0x00, 0x01] ∧ pesKeyFrame[8]? = some 0x05 ∧
    pesKeyFrame.drop (9 + 5) = [0x00, 0x00, 0x00, 0x01, 0x65, 0xAA] ∧
    ∃ pts, parsePes 1 pesKeyFrame = .ret (true, pts, none) :=
  ⟨by decide, by decide, by decide,
    C7_key_frame_after_four_byte_start_code 0 pesKeyFrame 0x05 0x65 [0xAA]
      (by decide) (by decide) (by decide) (by decide) (by decide)⟩

/-- C7 as stated fails: the 14-byte payload `pesShortDts` begins with
`00 00 01`, has header length 0 and the elementary stream `00 00 00 01 65`
(low 5 bits of `65` are 5), yet `parsePes` panics, because bit `0x4000` of the
flags word sends it to decode a DTS from the empty slice `p[14:]`. -/
theorem C7_counterexample_short_payload :
    pesShortDts.take 3 = [0x00, 0x00, 0x01] ∧ pesShortDts[8]? = some 0x00 ∧
    pesShortDts.drop (9 + 0) = [0x00, 0x00, 0x00, 0x01, 0x65] ∧ (0x65 : Byte).val % 32 = 5 ∧
    (∀ fuel, parsePes fuel pesShortDts = .panic) ∧
    (adaptedPacket 169 pesShortDts).length = 188 ∧
    (∀ fuel, examine fuel (adaptedPacket 169 pesShortDts) = .stop .panic) := by
  set_option maxRecDepth 100000 in
  exact ⟨by decide, by decide, by decide, by decide, fun _ => rfl, by decide, fun _ => rfl⟩


/-- The first pass on a range that opens with `00 00 00 01` matches the 4-byte
start code at once and leaves `pos = 4`. -/
theorem scanLoop_four_byte (t : Byte) (rest : List Byte) :
    scanLoop (0x00 :: 0x00 :: 0x00 :: 0x01 :: t :: rest)
      ((0x00 :: 0x00 :: 0x00 :: 0x01 :: t :: rest : List Byte).length - 4) 0 = .hit 4 := by
  have hn : (0x00 :: 0x00 :: 0x00 :: 0x01 :: t :: rest : List Byte).length - 4
      = rest.length + 1 := by simp
  rw [hn, scanLoop_succ _ (by simp)]
  simp [StartCodeAt, StartCode4At]

/-- C8 (as amended). Let the first scan of `parseEs` on `es` match a start code
and stop with `pos` just after it, and let `b = es[pos]`. If the low 5 bits of
`b` equal 5, `parseEs` returns true. Otherwise `parseEs` does not return at
that unit: the scan resumes at `pos` and the result is the one of the resumed
scan, so later units are scanned; the result is false when no start code lies
at or after `pos` and the resumed scan has room (`pos + 4 < len(es)`). In
particular an `es` of at least 9 bytes that begins with `00 00 00 01` followed
by a byte whose low 5 bits equal 7 gives false when no start code lies at an
offset from 4 on. -/
theorem C8_first_unit_then_resume (fuel : Nat) (es : List Byte) (pos : Nat) (b : Byte)
    (hscan : scanLoop es (es.length - 4) 0 = .hit pos) (hb : es[pos]? = some b) :
    (b.val % 32 = 5 → parseEs (fuel + 1) es = .ret true) ∧
    (b.val % 32 ≠ 5 → parseEs (fuel + 1) es = parseEsLoop es fuel pos) ∧
    (b.val % 32 ≠ 5 → pos + 4 < es.length → (∀ j, pos ≤ j → ¬ StartCodeAt es j) →
      parseEs (fuel + 2) es = .ret false) ∧
    (∀ t rest, es = 0x00 :: 0x00 :: 0x00 :: 0x01 :: t :: rest → t.val % 32 = 7 →
      4 ≤ rest.length → (∀ j, 4 ≤ j → ¬ StartCodeAt es j) →
      parseEs (fuel + 2) es = .ret false) := by
  have hstep : ∀ f, parseEs (f + 1) es =
      if b.val &&& 0x1F = 5 then .ret true else parseEsLoop es f pos := by
    intro f
    rw [parseEs, parseEsLoop, Nat.sub_zero, hscan]
    simp [index, hb]
  have hresume : b.val % 32 ≠ 5 → pos + 4 < es.length → (∀ j, pos ≤ j → ¬ StartCodeAt es j) →
      parseEs (fuel + 2) es = .ret false := by
    intro h5 hroom hno
    obtain ⟨n, hn⟩ : ∃ n, es.length - 4 - pos = n + 1 := ⟨es.length - 5 - pos, by omega⟩
    rw [hstep, if_neg (by rw [and_1F_eq_mod]; exact h5), parseEsLoop, hn,
      scanLoop_miss es n pos (by omega) hno]
  refine ⟨fun h5 => ?_, fun h5 => ?_, hresume, ?_⟩
  · rw [hstep, if_pos (by rw [and_1F_eq_mod]; exact h5)]
  · rw [hstep, if_neg (by rw [and_1F_eq_mod]; exact h5)]
  · intro t rest hes ht hlen hno
    subst hes
    have h4 := scanLoop_four_byte t rest
    rw [hscan] at h4
    have hpos : pos = 4 := by simpa using h4
    subst hpos
    have hbt : b = t := by simpa using hb.symm
    subst hbt
    exact hresume (by omega) (by simp only [List.length_cons]; omega) hno

/-- A start code lies wholly inside the range. -/
theorem StartCodeAt.lt_length {es : List Byte} {j : Nat} (h : StartCodeAt es j) :
    j + 2 < es.length := by
  by_contra hlt
  have := h.2.2
  rw [List.getElem?_eq_none (by omega)] at this
  exact absurd this (by simp)

/-- C8, witness: on `esSpsOnly` (`00 00 00 01 67` and five bytes without a
start code) the first scan stops at offset 4 on the type byte `67`, and the
result is false. -/
theorem C8_first_unit_then_resume_witness :
    scanLoop esSpsOnly (esSpsOnly.length - 4) 0 = .hit 4 ∧ esSpsOnly[4]? = some 0x67 ∧
    parseEs 2 esSpsOnly = parseEsLoop esSpsOnly 1 4 ∧ parseEs 2 esSpsOnly = .ret false :=
  have h := C8_first_unit_then_resume 0 esSpsOnly 4 0x67 (by decide) (by decide)
  have h1 := C8_first_unit_then_resume 1 esSpsOnly 4 0x67 (by decide) (by decide)
  ⟨by decide, by decide, h1.2.1 (by decide),
    h.2.2.2 0x67 [0x42, 0x00, 0x1E, 0xAB, 0x40] rfl (by decide) (by decide) (by
      intro j hj hsc
      have hlt : j + 2 < 10 := hsc.lt_length
      have hj8 : j < 8 := by omega
      interval_cases j <;> exact absurd hsc (by decide))⟩

/-- C8 as stated fails: `esSpsThenIdr` begins with `00 00 00 01 67`, so the
first matched unit has type 7, not 5; yet `parseEs` goes on to the unit at
offset 5 and returns true. -/
theorem C8_counterexample_later_unit :
    esSpsThenIdr.take 5 = [0x00, 0x00, 0x00, 0x01, 0x67] ∧ (0x67 : Byte).val % 32 = 7 ∧
    scanLoop esSpsThenIdr (esSpsThenIdr.length - 4) 0 = .hit 4 ∧
    (∀ fuel, parseEs (fuel + 2) esSpsThenIdr = .ret true) :=
  ⟨by decide, by decide, by decide, fun _ => rfl⟩

/-- C9, the code at ranges shorter than 5 bytes without a start code: the
one-byte range `65` is reported as a key frame, on the one-byte range `00`
`parseEs` never returns, and on the empty range it panics; a packet whose
elementary stream is the single byte `65` is taken for a key frame. -/
theorem C9_short_range_not_rejected :
    ((∀ j, ¬ StartCodeAt [0x65] j) ∧ ∀ fuel, parseEs (fuel + 1) [0x65] = .ret true) ∧
    ((∀ j, ¬ StartCodeAt [0x00] j) ∧ ∀ fuel, parseEs fuel [0x00] = .spin) ∧
    ((∀ j, ¬ StartCodeAt [] j) ∧ ∀ fuel, parseEs (fuel + 1) [] = .panic) ∧
    (adaptedPacket 173 (pesHeaderOnly ++ [0x65])).length = 188 ∧
    (∀ fuel, examine (fuel + 1) (adaptedPacket 173 (pesHeaderOnly ++ [0x65])) = .key 0) := by
  have hno : ∀ (b : Byte) (j : Nat), ¬ StartCodeAt [b] j := by
    intro b j h
    have := h.2.1
    simp at this
  set_option maxRecDepth 100000 in
  exact ⟨⟨hno _, fun _ => rfl⟩,
    ⟨hno _, parseEsLoop_spin (by decide) (b := 0x00) (by decide) (by decide)⟩,
    ⟨fun j h => by simpa using h.1, fun _ => rfl⟩, by decide, fun _ => rfl⟩

/-- C10, the code at the empty range: `parseEs` reads `es[0]` of a range of
length 0 and panics; the 188-byte packet whose payload is the bare 9-byte PES
header `pesHeaderOnly` makes one pass of `Parse` end in that panic. -/
theorem C10_empty_range_read_out_of_range :
    (∀ fuel, parseEs (fuel + 1) [] = .panic) ∧
    (adaptedPacket 174 pesHeaderOnly).length = 188 ∧
    (∀ sink fuel cur,
      demuxStep sink (fuel + 1) cur (adaptedPacket 174 pesHeaderOnly) = .stop .panic []) := by
  set_option maxRecDepth 100000 in
  exact ⟨fun _ => rfl, by decide, fun _ _ _ => rfl⟩

/-! ## Header fields, payload slice and routing -/

/-- The big-endian word of the four header bytes. -/
theorem Uint32_cons (b0 b1 b2 b3 : Byte) (rest : List Byte) :
    Uint32 (b0 :: b1 :: b2 :: b3 :: rest) =
      .ret (b0.val * 2 ^ 24 + b1.val * 2 ^ 16 + b2.val * 2 ^ 8 + b3.val) := by
  have h3 : b3.val < 2 ^ 8 := b3.isLt
  have h2 : b2.val < 2 ^ 8 := b2.isLt
  have h1 : b1.val < 2 ^ 8 := b1.isLt
  have e1 : b3.val ||| b2.val <<< 8 = 2 ^ 8 * b2.val + b3.val := by
    rw [Nat.or_comm, Nat.shiftLeft_eq, Nat.mul_comm, ← Nat.mul_add_lt_is_or h3]
  have e2 : (2 ^ 8 * b2.val + b3.val) ||| b1.val <<< 16
      = 2 ^ 16 * b1.val + (2 ^ 8 * b2.val + b3.val) := by
    rw [Nat.or_comm, Nat.shiftLeft_eq, Nat.mul_comm,
      ← Nat.mul_add_lt_is_or (by omega : 2 ^ 8 * b2.val + b3.val < 2 ^ 16)]
  have e3 : (2 ^ 16 * b1.val + (2 ^ 8 * b2.val + b3.val)) ||| b0.val <<< 24
      = 2 ^ 24 * b0.val + (2 ^ 16 * b1.val + (2 ^ 8 * b2.val + b3.val)) := by
    rw [Nat.or_comm, Nat.shiftLeft_eq, Nat.mul_comm,
      ← Nat.mul_add_lt_is_or
        (by omega : 2 ^ 16 * b1.val + (2 ^ 8 * b2.val + b3.val) < 2 ^ 24)]
  simp only [Uint32, index_zero_cons, index_succ_cons, Run.bind_ret, e1, e2, e3]
  congr 1
  ring

/-- Masking with `0x1fff00` and shifting right by 8 keeps bits 8 to 20. -/
theorem and_1fff00_shift (h : Nat) : (h &&& 0x1fff00) >>> 8 = h / 256 % 8192 := by
  have e : (0x1fff00 : Nat) = (2 ^ 13 - 1) <<< 8 := by decide
  have e2 : h / 256 % 8192 = (h >>> 8) &&& (2 ^ 13 - 1) := by
    rw [Nat.and_pow_two_sub_one_eq_mod, Nat.shiftRight_eq_div_pow]
  rw [e2, e]
  apply Nat.eq_of_testBit_eq
  intro j
  simp only [Nat.testBit_shiftRight, Nat.testBit_and, Nat.testBit_shiftLeft,
    Nat.testBit_two_pow_sub_one]
  have : 8 + j - 8 = j := by omega
  simp [this]

/-- The payload-unit-start bit of the header word is bit `0x40` of byte 1. -/
theorem payloadUnitStart_bytes (b0 b1 b2 b3 : Byte) :
    payloadUnitStart (b0.val * 2 ^ 24 + b1.val * 2 ^ 16 + b2.val * 2 ^ 8 + b3.val) = true ↔
      b1.val &&& 0x40 ≠ 0 := by
  have h1 := b1.isLt
  have h2 := b2.isLt
  have h3 := b3.isLt
  have e1 := and_two_pow_eq (b0.val * 2 ^ 24 + b1.val * 2 ^ 16 + b2.val * 2 ^ 8 + b3.val) 22
  have e2 := and_two_pow_eq b1.val 6
  norm_num at e1 e2
  simp only [payloadUnitStart, bne_iff_ne, ne_eq]
  norm_num
  rw [e1, e2]
  omega

/-- The adaptation-field bit of the header word is bit `0x20` of byte 3. -/
theorem adaptationFieldExist_bytes (b0 b1 b2 b3 : Byte) :
    adaptationFieldExist (b0.val * 2 ^ 24 + b1.val * 2 ^ 16 + b2.val * 2 ^ 8 + b3.val) = true ↔
      b3.val &&& 0x20 ≠ 0 := by
  have h3 := b3.isLt
  have e1 := and_two_pow_eq (b0.val * 2 ^ 24 + b1.val * 2 ^ 16 + b2.val * 2 ^ 8 + b3.val) 5
  have e2 := and_two_pow_eq b3.val 5
  norm_num at e1 e2
  simp only [adaptationFieldExist, bne_iff_ne, ne_eq]
  norm_num
  rw [e1, e2]
  omega

/-- The PID of the header word is the low five bits of byte 1 followed by
byte 2. -/
theorem pid_bytes (b0 b1 b2 b3 : Byte) :
    pid (b0.val * 2 ^ 24 + b1.val * 2 ^ 16 + b2.val * 2 ^ 8 + b3.val) =
      (b1.val &&& 0x1F) * 256 + b2.val := by
  have h1 := b1.isLt
  have h2 := b2.isLt
  have h3 := b3.isLt
  rw [pid, and_1fff00_shift, and_1F_eq_mod]
  omega

/-- One examination of a packet that starts with the sync byte: the payload
slice, then the PES parser when the packet starts a unit on PID 256. -/
theorem examine_sync (fuel : Nat) (b1 b2 b3 : Byte) (rest : List Byte) :
    examine fuel (0x47 :: b1 :: b2 :: b3 :: rest) =
      (payload ((0x47 : Byte).val * 2 ^ 24 + b1.val * 2 ^ 16 + b2.val * 2 ^ 8 + b3.val)
          (0x47 :: b1 :: b2 :: b3 :: rest)).orStop fun p =>
        if payloadUnitStart ((0x47 : Byte).val * 2 ^ 24 + b1.val * 2 ^ 16 + b2.val * 2 ^ 8
              + b3.val)
            && pid ((0x47 : Byte).val * 2 ^ 24 + b1.val * 2 ^ 16 + b2.val * 2 ^ 8 + b3.val)
              == 256
        then pesVerdict fuel p else .plain := by
  have hs : sliceFrom (0x47 :: b1 :: b2 :: b3 :: rest) 4 = .ret rest := by simp [sliceFrom]
  have hsync : ¬ ((0x47 : Byte).val ≠ SYNC_BYTE) := by decide
  simp only [examine, Uint32_cons, Run.orStop, index_zero_cons, payload, hs, Run.bind_ret,
    payloadUnitStart, pid, adaptationFieldExist, pesVerdict, if_neg hsync]

theorem exists_five_of_length {buf : List Byte} (h : 5 ≤ buf.length) :
    ∃ b0 b1 b2 b3 b4 rest, buf = b0 :: b1 :: b2 :: b3 :: b4 :: rest := by
  match buf, h with
  | b0 :: b1 :: b2 :: b3 :: b4 :: rest, _ => exact ⟨b0, b1, b2, b3, b4, rest, rfl⟩

/-- Without an adaptation field the payload is the packet after its four header
bytes. -/
theorem payload_no_field {header : Nat} {buf : List Byte}
    (hf : adaptationFieldExist header = false) (hlen : 4 ≤ buf.length) :
    payload header buf = .ret (buf.drop 4) := by
  simp [payload, hf, sliceFrom_of_le hlen]

/-- With an adaptation field of declared length `L` the payload is sliced at
`(L + 1) mod 256` after the header. -/
theorem payload_field {header : Nat} {buf : List Byte} {L : Byte}
    (hf : adaptationFieldExist header = true) (hlen : 4 ≤ buf.length)
    (h4 : buf[4]? = some L) :
    payload header buf = sliceFrom (buf.drop 4) ((L.val + 1) % 256) := by
  simp [payload, hf, sliceFrom_of_le hlen, index, h4]

theorem payload_field_in_range {header : Nat} {buf : List Byte} {L : Byte}
    (hf : adaptationFieldExist header = true) (hlen : buf.length = 188)
    (h4 : buf[4]? = some L) (hL : L.val ≤ 183) :
    payload header buf = .ret (buf.drop (5 + L.val)) := by
  rw [payload_field hf (by omega) h4, sliceFrom_of_le (by rw [List.length_drop]; omega),
    List.drop_drop]
  have : 4 + (L.val + 1) % 256 = 5 + L.val := by omega
  rw [this]

theorem payload_field_out_of_range {header : Nat} {buf : List Byte} {L : Byte}
    (hf : adaptationFieldExist header = true) (hlen : buf.length = 188)
    (h4 : buf[4]? = some L) (hL : 184 ≤ L.val) (hL' : L.val ≤ 254) :
    payload header buf = .panic := by
  rw [payload_field hf (by omega) h4, sliceFrom_of_gt (by rw [List.length_drop]; omega)]

/-- C11 (as amended). For every 188-byte packet `buf` with sync byte `47` and
header word `header`: when the adaptation-field flag (bit `0x20` of byte 3) is
set and the declared length `L` = byte 4 is at most 183, the payload starts
`1 + L` bytes after the 4-byte header, at packet offset `5 + L`; when the flag
is clear the payload starts at offset 4; and this payload is what `Parse` hands
on: the pass goes on with it to the routing test and to `parsePes`. -/
theorem C11_adaptation_field_skip (fuel : Nat) (buf : List Byte) (header : Nat) (b3 L : Byte)
    (hlen : buf.length = 188) (h0 : buf[0]? = some 0x47) (hh : Uint32 buf = .ret header)
    (h3 : buf[3]? = some b3) (h4 : buf[4]? = some L) :
    (b3.val &&& 0x20 ≠ 0 → L.val ≤ 183 → payload header buf = .ret (buf.drop (5 + L.val))) ∧
    (b3.val &&& 0x20 = 0 → payload header buf = .ret (buf.drop 4)) ∧
    examine fuel buf = (payload header buf).orStop fun p =>
      if payloadUnitStart header && pid header == 256 then pesVerdict fuel p else .plain := by
  obtain ⟨b0, b1, b2, c3, c4, rest, rfl⟩ := @exists_five_of_length buf (by omega)
  have e0 : b0 = 0x47 := by simpa using h0
  have e3 : c3 = b3 := by simpa using h3
  subst e0 e3
  rw [Uint32_cons] at hh
  have hh' := Run.ret.inj hh
  subst hh'
  refine ⟨fun hf hL => ?_, fun hf => ?_, examine_sync fuel b1 b2 c3 (c4 :: rest)⟩
  · exact payload_field_in_range ((adaptationFieldExist_bytes _ b1 b2 c3).mpr hf) hlen h4 hL
  · refine payload_no_field ?_ (by omega)
    cases hb : adaptationFieldExist ((0x47 : Byte).val * 2 ^ 24 + b1.val * 2 ^ 16
        + b2.val * 2 ^ 8 + c3.val) with
    | false => rfl
    | true => exact absurd hf ((adaptationFieldExist_bytes _ b1 b2 c3).mp hb)

set_option maxRecDepth 100000 in
/-- C11, witness: in `adaptedPacket 169 pesShortDts` the flag is set and the
declared length is 169, so the payload is the 14 bytes from offset 174. -/
theorem C11_adaptation_field_skip_witness :
    (adaptedPacket 169 pesShortDts).length = 188 ∧
    payload 0x47410030 (adaptedPacket 169 pesShortDts)
      = .ret ((adaptedPacket 169 pesShortDts).drop (5 + 169)) ∧
    (adaptedPacket 169 pesShortDts).drop (5 + 169) = pesShortDts :=
  ⟨by decide,
    (C11_adaptation_field_skip 0 (adaptedPacket 169 pesShortDts) 0x47410030 0x30 169
      (by decide) (by decide) (by decide) (by decide) (by decide)).1 (by decide) (by decide),
    by decide⟩

set_option maxRecDepth 100000 in
/-- C11 as stated fails for declared lengths above 183. With `L = 255` the sum
`L + 1` wraps to 0 in `uint8`, so the payload of the 188-byte packet
`fieldPacket 255` starts at offset 4, not at offset 260; with `L = 200` the
slice `p[201:]` of the 184 bytes after the header is out of range and the pass
panics: no payload is handed on. -/
theorem C11_counterexample_long_field :
    (fieldPacket 255).length = 188 ∧ (fieldPacket 255)[0]? = some 0x47 ∧
    (fieldPacket 255)[3]? = some 0x30 ∧ (0x30 : Byte).val &&& 0x20 ≠ 0 ∧
    (fieldPacket 255)[4]? = some 255 ∧
    Uint32 (fieldPacket 255) = .ret 0x47010130 ∧
    payload 0x47010130 (fieldPacket 255) = .ret ((fieldPacket 255).drop 4) ∧
    (fieldPacket 255).drop 4 ≠ (fieldPacket 255).drop (5 + 255) ∧
    (fieldPacket 200).length = 188 ∧ (fieldPacket 200)[4]? = some 200 ∧
    Uint32 (fieldPacket 200) = .ret 0x47010130 ∧
    payload 0x47010130 (fieldPacket 200) = .panic :=
  ⟨by decide, by decide, by decide, by decide, by decide, by decide, by decide, by decide,
    by decide, by decide, by decide, by decide⟩

/-- One examination of a whole packet with sync byte `47`, in terms of its
bytes: the payload slice, then `parsePes` exactly when bit `0x40` of byte 1 is
set and the 13-bit PID `(byte1 & 0x1F) * 256 + byte2` is 256. -/
theorem examine_bytes (fuel : Nat) {buf : List Byte} {header : Nat} {b1 b2 : Byte}
    (hlen : buf.length = 188) (h0 : buf[0]? = some 0x47) (h1 : buf[1]? = some b1)
    (h2 : buf[2]? = some b2) (hh : Uint32 buf = .ret header) :
    examine fuel buf = (payload header buf).orStop fun p =>
      if b1.val &&& 0x40 ≠ 0 ∧ (b1.val &&& 0x1F) * 256 + b2.val = 256
      then pesVerdict fuel p else .plain := by
  obtain ⟨b0, c1, c2, c3, c4, rest, rfl⟩ := @exists_five_of_length buf (by omega)
  have e0 : b0 = 0x47 := by simpa using h0
  have e1 : c1 = b1 := by simpa using h1
  have e2 : c2 = b2 := by simpa using h2
  subst e0 e1 e2
  rw [Uint32_cons] at hh
  have hh' := Run.ret.inj hh
  subst hh'
  rw [examine_sync]
  congr 1
  funext p
  by_cases hr : c1.val &&& 0x40 ≠ 0 ∧ (c1.val &&& 0x1F) * 256 + c2.val = 256
  · rw [if_pos hr, if_pos]
    simp only [Bool.and_eq_true, beq_iff_eq]
    exact ⟨(payloadUnitStart_bytes _ c1 c2 c3).mpr hr.1, by rw [pid_bytes]; exact hr.2⟩
  · rw [if_neg hr, if_neg]
    simp only [Bool.and_eq_true, beq_iff_eq]
    rintro ⟨ha, hb⟩
    exact hr ⟨(payloadUnitStart_bytes _ c1 c2 c3).mp ha, by rw [pid_bytes] at hb; exact hb⟩

/-- A payload of at least three bytes that does not open with `00 00 01` gets
the start-code error. -/
theorem parsePes_of_not_start_code (fuel : Nat) {p : List Byte} (hlen : 3 ≤ p.length)
    (h : ¬ StartCodeAt p 0) : parsePes fuel p = .ret (false, -1, some .startCode) := by
  rw [parsePes, startCode3_eq_ret (by omega)]
  simp [h]

/-- A payload that opens with `00 00 01` never gets an error back. -/
theorem parsePes_no_error_of_start_code {fuel : Nat} {p : List Byte} (hlen : 3 ≤ p.length)
    (hsc : StartCodeAt p 0) (i : Bool) (t : Int) (e : GoError) :
    parsePes fuel p ≠ .ret (i, t, some e) := by
  intro h
  rw [parsePes, startCode3_eq_ret (by omega)] at h
  simp only [hsc, decide_True, Run.bind_ret, Bool.true_eq_false, if_false] at h
  obtain ⟨_, -, h⟩ := Run.bind_eq_ret h
  obtain ⟨_, -, h⟩ := Run.bind_eq_ret h
  obtain ⟨_, -, h⟩ := Run.bind_eq_ret h
  obtain ⟨_, -, h⟩ := Run.bind_eq_ret h
  obtain ⟨_, -, h⟩ := Run.bind_eq_ret h
  obtain ⟨_, -, h⟩ := Run.bind_eq_ret h
  obtain ⟨_, -, h⟩ := Run.bind_eq_ret h
  obtain ⟨_, -, h⟩ := Run.bind_eq_ret h
  obtain ⟨_, -, h⟩ := Run.bind_eq_ret h
  obtain ⟨_, -, h⟩ := Run.bind_eq_ret h
  simp at h

/-- C12. For every payload `p` of at least 3 bytes, `parsePes` returns the
start-code error, with key-frame = false and pts = -1, when `p` does not begin
with `00 00 01`, and returns no error at all when it does. -/
theorem C12_start_code_validation (fuel : Nat) (p : List Byte) (hlen : 3 ≤ p.length) :
    (¬ StartCodeAt p 0 → parsePes fuel p = .ret (false, -1, some .startCode)) ∧
    (StartCodeAt p 0 → ∀ i t e, parsePes fuel p ≠ .ret (i, t, some e)) :=
  ⟨parsePes_of_not_start_code fuel hlen, fun hsc i t e =>
    parsePes_no_error_of_start_code hlen hsc i t e⟩

/-- C12, witness: the payload `00 00 02` gets the start-code error, and the
20-byte payload `pesKeyFrame`, which begins with `00 00 01`, gets no error. -/
theorem C12_start_code_validation_witness :
    parsePes 1 [0x00, 0x00, 0x02] = .ret (false, -1, some .startCode) ∧
    (∀ i t e, parsePes 1 pesKeyFrame ≠ .ret (i, t, some e)) :=
  ⟨(C12_start_code_validation 1 [0x00, 0x00, 0x02] (by decide)).1 (by decide),
    (C12_start_code_validation 1 pesKeyFrame (by decide)).2 (by decide)⟩

/-- The timestamp `parsePes` returns: decoded from the bytes after the 9-byte
header when bit `0x80` of byte 6 is set (bit `0x8000` of the flags word), and 0
otherwise. -/
theorem parsePes_pts (fuel : Nat) (sid l1 l2 f1 f2 hl : Byte) (rest : List Byte)
    (i : Bool) (t : Int)
    (h : parsePes fuel (0x00 :: 0x00 :: 0x01 :: sid :: l1 :: l2 :: f1 :: f2 :: hl :: rest)
      = .ret (i, t, none)) :
    (f1.val &&& 0x80 ≠ 0 → parsePesPtsDts rest = .ret t) ∧ (f1.val &&& 0x80 = 0 → t = 0) := by
  rw [parsePes_header] at h
  obtain ⟨pts, hpts, h⟩ := Run.bind_eq_ret h
  obtain ⟨_, -, h⟩ := Run.bind_eq_ret h
  obtain ⟨_, -, h⟩ := Run.bind_eq_ret h
  obtain ⟨_, -, h⟩ := Run.bind_eq_ret h
  simp only [Run.ret.injEq, Prod.mk.injEq, and_true] at h
  obtain ⟨-, rfl⟩ := h
  constructor
  · intro hf
    rw [if_pos (fun h0 => hf ((word_and_8000 f1 f2).mp h0))] at hpts
    exact hpts
  · intro hf
    rw [if_neg (fun h0 => h0 ((word_and_8000 f1 f2).mpr hf))] at hpts
    exact (Run.ret.inj hpts).symm

set_option maxRecDepth 100000 in
/-- C13, the code against the standard layout. `pesNoPts` has byte 7 = `00`, so
its PTS-present flag (bit `0x80` of byte 7) is clear, yet `parsePes` returns the
timestamp 178, decoded from the first bytes of the elementary stream.
`pesPtsInByte7` has the flag set and the PTS field `21 00 01 00 03`
(timestamp 1), yet `parsePes` returns 0. In general `parsePes` tests bit `0x80`
of byte 6. The packet `adaptedPacket 169 pesNoPts` is taken for a key frame
with timestamp 178. -/
theorem C13_pts_flag_read_from_byte_6 :
    (pesNoPts[7]? = some 0x00 ∧ (0x00 : Byte).val &&& 0x80 = 0 ∧
      ∀ fuel, parsePes (fuel + 1) pesNoPts = .ret (true, 178, none)) ∧
    (pesPtsInByte7[7]? = some 0x80 ∧ (0x80 : Byte).val &&& 0x80 ≠ 0 ∧
      parsePesPtsDts (pesPtsInByte7.drop 9) = .ret 1 ∧
      ∀ fuel, parsePes (fuel + 1) pesPtsInByte7 = .ret (true, 0, none)) ∧
    (∀ fuel sid l1 l2 f1 f2 hl rest i t,
      parsePes fuel (0x00 :: 0x00 :: 0x01 :: sid :: l1 :: l2 :: f1 :: f2 :: hl :: rest)
        = .ret (i, t, none) →
      (f1.val &&& 0x80 ≠ 0 → parsePesPtsDts rest = .ret t) ∧ (f1.val &&& 0x80 = 0 → t = 0)) ∧
    (adaptedPacket 169 pesNoPts).length = 188 ∧
    (∀ fuel, examine (fuel + 1) (adaptedPacket 169 pesNoPts) = .key 178) :=
  ⟨⟨by decide, by decide, fun _ => rfl⟩, ⟨by decide, by decide, by decide, fun _ => rfl⟩,
    parsePes_pts, by decide, fun _ => rfl⟩

/-- A run that went through the whole packets `pre` and then met a whole packet
on which the pass leaves `Parse` before line 119: `Parse` ends there, whatever
follows, with the flushes made for `pre`. -/
theorem Parse_abort_at {sink : Int → List Byte → Bool} {fuel : Nat} {pre : List (List Byte)}
    {bad : List Byte} (rest : List Byte) {x : Run GoError}
    (hlen : ∀ p ∈ pre, p.length = 188) (hbad : bad.length = 188)
    (hx : examine fuel bad = .stop x)
    (hpre : (Parse sink fuel pre.flatten).exit = .ret .EOF) :
    ∃ cur out, advance sink fuel pre ⟨[], 0⟩ = .next cur out ∧
      Parse sink fuel pre.flatten = ⟨out ++ [Flush .endOfStream cur], .ret .EOF⟩ ∧
      Parse sink fuel (pre.flatten ++ bad ++ rest) = ⟨out, x⟩ := by
  obtain ⟨cur, out, ha, hP⟩ := Parse_eof hlen hpre
  have hn : (pre.flatten ++ bad ++ rest).length / MPEGTS_PACKET_SIZE
      = pre.length + (rest.length / 188 + 1) := by
    rw [List.length_append, List.length_append, length_flatten_packets hlen, hbad,
      MPEGTS_PACKET_SIZE]
    omega
  refine ⟨cur, out, ha, hP, ?_⟩
  rw [Parse, hn, List.append_assoc, parseLoop_advance sink fuel pre _ _ _ hlen, ha]
  simp only [parseLoop_cons sink fuel _ rest cur hbad, demuxStep_stop cur hx, List.append_nil]

/-- The call of `parsePes` at line 114 on a payload of at least three bytes
without the start code makes the pass return the start-code error. -/
theorem pesVerdict_of_not_start_code (fuel : Nat) {p : List Byte} (hlen : 3 ≤ p.length)
    (h : ¬ StartCodeAt p 0) : pesVerdict fuel p = .stop (.ret .startCode) := by
  rw [pesVerdict, parsePes_of_not_start_code fuel hlen h]
  rfl

/-- C14. When the packets `pre` are processed without error and the next
188-byte packet `bad` has sync byte `47`, payload-unit-start set, PID 256 and a
payload `p` of at least 3 bytes that does not begin with `00 00 01`, `Parse`
returns the start-code error whatever follows; its calls of `Flush` are exactly
those made for `pre` before the end-of-stream flush, so nothing is flushed at
or after the bad packet and the active segment is not flushed; and every
segment flushed is a run of packets of `pre`, so the bad packet is in none. -/
theorem C14_pes_error_aborts_without_flush (sink : Int → List Byte → Bool) (fuel : Nat)
    (pre : List (List Byte)) (bad rest : List Byte) (header : Nat) (b1 b2 : Byte)
    (p : List Byte)
    (hlen : ∀ q ∈ pre, q.length = 188)
    (hbad : bad.length = 188)
    (h0 : bad[0]? = some 0x47) (h1 : bad[1]? = some b1) (h2 : bad[2]? = some b2)
    (hpusi : b1.val &&& 0x40 ≠ 0)
    (hpid : (b1.val &&& 0x1F) * 256 + b2.val = 256)
    (hh : Uint32 bad = .ret header)
    (hp : payload header bad = .ret p)
    (hp3 : 3 ≤ p.length)
    (hsc : ¬ StartCodeAt p 0)
    (hpre : (Parse sink fuel pre.flatten).exit = .ret .EOF) :
    (Parse sink fuel (pre.flatten ++ bad ++ rest)).exit = .ret .startCode ∧
    (∃ cur, (Parse sink fuel pre.flatten).flushes =
      (Parse sink fuel (pre.flatten ++ bad ++ rest)).flushes ++ [Flush .endOfStream cur]) ∧
    (∀ e ∈ (Parse sink fuel (pre.flatten ++ bad ++ rest)).flushes,
      ∃ a seg b, pre = a ++ seg ++ b ∧ e.bytes = seg.flatten) := by
  have hx : examine fuel bad = .stop (.ret .startCode) := by
    rw [examine_bytes fuel hbad h0 h1 h2 hh, hp]
    simp only [Run.orStop]
    rw [if_pos ⟨hpusi, hpid⟩, pesVerdict_of_not_start_code fuel hp3 hsc]
  obtain ⟨cur, out, ha, hP, hrun⟩ := Parse_abort_at rest hlen hbad hx hpre
  rw [hrun, hP]
  refine ⟨rfl, ⟨cur, rfl⟩, fun e he => ?_⟩
  have hinv := (advance_flushed_runs sink fuel pre [] [] ⟨[], 0⟩ rfl (SegmentOf.nil fuel 0)).1
    cur out ha
  obtain ⟨a, seg, b, hab, hb, -⟩ := hinv.1 e he
  exact ⟨a, seg, b, by simpa using hab, hb⟩

set_option maxRecDepth 100000 in
/-- C14, witness: after one key frame, the packet `adaptedPacket 180 [00 00 02]`
(PID 256, payload-unit-start, payload `00 00 02`) ends `Parse` with the
start-code error and without any flush. -/
theorem C14_pes_error_aborts_without_flush_witness :
    (Parse acceptAll 1 ([samplePacket 3 0x65].flatten ++ adaptedPacket 180 [0x00, 0x00, 0x02]
        ++ otherPidPacket)).exit = .ret .startCode ∧
    (∃ cur, (Parse acceptAll 1 [samplePacket 3 0x65].flatten).flushes =
      (Parse acceptAll 1 ([samplePacket 3 0x65].flatten ++ adaptedPacket 180 [0x00, 0x00, 0x02]
        ++ otherPidPacket)).flushes ++ [Flush .endOfStream cur]) ∧
    (∀ e ∈ (Parse acceptAll 1 ([samplePacket 3 0x65].flatten
        ++ adaptedPacket 180 [0x00, 0x00, 0x02] ++ otherPidPacket)).flushes,
      ∃ a seg b, [samplePacket 3 0x65] = a ++ seg ++ b ∧ e.bytes = seg.flatten) :=
  C14_pes_error_aborts_without_flush acceptAll 1 [samplePacket 3 0x65]
    (adaptedPacket 180 [0x00, 0x00, 0x02]) otherPidPacket 0x47410030 0x41 0x00
    [0x00, 0x00, 0x02]
    (by decide) (by decide) (by decide) (by decide) (by decide) (by decide) (by decide)
    (by decide) (by decide) (by decide) (by decide) (by decide)

/-- On a payload that holds every byte read from it `parsePes` does not
panic. -/
theorem parsePes_no_panic (fuel : Nat) {p : List Byte} (h : PesInRange p) :
    parsePes fuel p ≠ .panic := by
  by_cases hsc : StartCodeAt p 0
  · obtain ⟨h9, hpts, hdts, hhl⟩ := h.2 hsc
    obtain ⟨a0, a1, a2, a3, a4, a5, a6, a7, a8, rest, rfl⟩ :=
      exists_header_of_length (p := p) h9
    obtain ⟨g0, g1, g2⟩ := hsc
    have e0 : a0 = 0 := by simpa using g0
    have e1 : a1 = 0 := by simpa using g1
    have e2 : a2 = 1 := by simpa using g2
    subst e0 e1 e2
    have hpts := hpts a6 (by simp)
    have hdts := hdts a6 (by simp)
    have hhl := hhl a8 (by simp)
    simp only [List.length_cons] at hpts hdts hhl
    rw [parsePes_header]
    have h1 : ∃ pts, (if (a6.val * 256 + a7.val) &&& 0x8000 ≠ 0 then parsePesPtsDts rest
        else Run.ret 0) = .ret pts := by
      split_ifs with hflag
      · exact parsePesPtsDts_of_length
          (by have := hpts (fun h0 => hflag ((word_and_8000 a6 a7).mpr h0)); omega)
      · exact ⟨0, rfl⟩
    have h2 : ∃ dts, (if (a6.val * 256 + a7.val) &&& 0x4000 ≠ 0 then
        (sliceFrom rest 5).bind parsePesPtsDts else Run.ret 0) = .ret dts := by
      split_ifs with hflag
      · have h19 := hdts (fun h0 => hflag ((word_and_4000 a6 a7).mpr h0))
        obtain ⟨d, hd⟩ := parsePesPtsDts_of_length (q := rest.drop 5)
          (by rw [List.length_drop]; omega)
        exact ⟨d, by rw [sliceFrom_of_le (by omega), Run.bind_ret, hd]⟩
      · exact ⟨0, rfl⟩
    obtain ⟨pts, h1⟩ := h1
    obtain ⟨dts, h2⟩ := h2
    rw [h1, h2, Run.bind_ret, Run.bind_ret, sliceFrom_of_le (by omega), Run.bind_ret]
    have hne : rest.drop a8.val ≠ [] := by
      intro h0
      have := congrArg List.length h0
      rw [List.length_drop] at this
      simp only [List.length_nil] at this
      omega
    cases hes : parseEs fuel (rest.drop a8.val) with
    | ret b => simp
    | spin => simp
    | panic => exact absurd hes (parseEs_no_panic_of_ne_nil fuel _ hne)
  · rw [parsePes_of_not_start_code fuel h.1 hsc]
    simp

theorem pesVerdict_no_panic (fuel : Nat) {p : List Byte} (h : PesInRange p) :
    pesVerdict fuel p ≠ .stop .panic := by
  rw [pesVerdict]
  cases hp : parsePes fuel p with
  | panic => exact absurd hp (parsePes_no_panic fuel h)
  | spin => simp [Run.orStop]
  | ret r =>
    obtain ⟨i, t, e⟩ := r
    cases e with
    | some e => simp [Run.orStop]
    | none => cases i <;> simp [Run.orStop]

/-- A pass does not end in a panic unless the examination of the packet
does. -/
theorem demuxStep_no_panic {sink : Int → List Byte → Bool} {fuel : Nat} {buf : List Byte}
    (cur : SegmentBuffer) (h : examine fuel buf ≠ .stop .panic) (out : List FlushEvent) :
    demuxStep sink fuel cur buf ≠ .stop .panic out := by
  unfold demuxStep
  cases hv : examine fuel buf with
  | stop e =>
    simp only [ne_eq, StepResult.stop.injEq, not_and]
    intro he
    rw [hv, he] at h
    exact absurd rfl h
  | plain => simp
  | key t =>
    simp only
    split_ifs <;> simp

/-- The payload slice of a whole packet in terms of its bytes 3 and 4: offset
`5 + L` for an adaptation field of declared length `L` up to 183, a panic for
`L` from 184 to 254, offset 4 without an adaptation field. -/
theorem payload_bytes {buf : List Byte} {header : Nat} {b3 L : Byte}
    (hlen : buf.length = 188) (hh : Uint32 buf = .ret header)
    (h3 : buf[3]? = some b3) (h4 : buf[4]? = some L) :
    (b3.val &&& 0x20 ≠ 0 → L.val ≤ 183 → payload header buf = .ret (buf.drop (5 + L.val))) ∧
    (b3.val &&& 0x20 ≠ 0 → 184 ≤ L.val → L.val ≤ 254 → payload header buf = .panic) ∧
    (b3.val &&& 0x20 = 0 → payload header buf = .ret (buf.drop 4)) := by
  obtain ⟨b0, b1, b2, c3, c4, rest, rfl⟩ := @exists_five_of_length buf (by omega)
  have e3 : c3 = b3 := by simpa using h3
  subst e3
  rw [Uint32_cons] at hh
  have hh' := Run.ret.inj hh
  subst hh'
  refine ⟨fun hf hL => ?_, fun hf hL hL' => ?_, fun hf => ?_⟩
  · exact payload_field_in_range ((adaptationFieldExist_bytes b0 b1 b2 c3).mpr hf) hlen h4 hL
  · exact payload_field_out_of_range ((adaptationFieldExist_bytes b0 b1 b2 c3).mpr hf) hlen h4
      hL hL'
  · refine payload_no_field ?_ (by omega)
    cases hb : adaptationFieldExist (b0.val * 2 ^ 24 + b1.val * 2 ^ 16
        + b2.val * 2 ^ 8 + c3.val) with
    | false => rfl
    | true => exact absurd hf ((adaptationFieldExist_bytes b0 b1 b2 c3).mp hb)

/-- With an adaptation field that fits, the payload slice is in range. -/
theorem payload_ret_of_fit {buf : List Byte} {header : Nat} {b3 L : Byte}
    (hlen : buf.length = 188) (hh : Uint32 buf = .ret header)
    (h3 : buf[3]? = some b3) (h4 : buf[4]? = some L)
    (hfit : b3.val &&& 0x20 ≠ 0 → L.val ≤ 183) : ∃ p, payload header buf = .ret p := by
  by_cases hf : b3.val &&& 0x20 = 0
  · exact ⟨_, (payload_bytes hlen hh h3 h4).2.2 hf⟩
  · exact ⟨_, (payload_bytes hlen hh h3 h4).1 hf (hfit hf)⟩

/-- C15 (as amended). For every 188-byte packet with sync byte `47` whose
adaptation field, when present (bit `0x20` of byte 3), has a declared length of
at most 183: the PES parser is called, on the payload slice, if and only if
the payload-unit-start bit (`0x40` of byte 1) is set and the 13-bit PID
`(byte1 & 0x1F) * 256 + byte2` equals 256; and for every such packet for which
it is not called, one pass of the loop returns no error, makes no call of
`Flush`, leaves the timestamp of the active segment unchanged and appends
exactly the 188 bytes of the packet to its bytes. -/
theorem C15_routing_and_frame (sink : Int → List Byte → Bool) (fuel : Nat)
    (cur : SegmentBuffer) (buf : List Byte) (header : Nat) (b1 b2 b3 L : Byte)
    (hlen : buf.length = 188) (h0 : buf[0]? = some 0x47) (h1 : buf[1]? = some b1)
    (h2 : buf[2]? = some b2) (h3 : buf[3]? = some b3) (h4 : buf[4]? = some L)
    (hh : Uint32 buf = .ret header)
    (hfit : b3.val &&& 0x20 ≠ 0 → L.val ≤ 183) :
    (b1.val &&& 0x40 ≠ 0 ∧ (b1.val &&& 0x1F) * 256 + b2.val = 256 →
      ∃ p, payload header buf = .ret p ∧ examine fuel buf = pesVerdict fuel p) ∧
    (¬ (b1.val &&& 0x40 ≠ 0 ∧ (b1.val &&& 0x1F) * 256 + b2.val = 256) →
      examine fuel buf = .plain ∧
      demuxStep sink fuel cur buf = .next ⟨cur.buf ++ buf, cur.Pts⟩ []) := by
  obtain ⟨p, hp⟩ := payload_ret_of_fit hlen hh h3 h4 hfit
  have he := examine_bytes fuel hlen h0 h1 h2 hh
  rw [hp] at he
  simp only [Run.orStop] at he
  constructor
  · intro hr
    rw [if_pos hr] at he
    exact ⟨p, hp, he⟩
  · intro hr
    rw [if_neg hr] at he
    exact ⟨he, demuxStep_plain cur he⟩

set_option maxRecDepth 100000 in
/-- C15, witness: `otherPidPacket` (PID 257, no adaptation field) is appended
to the active segment; `samplePacket 3 65` (PID 256, payload-unit-start) goes
to the PES parser with the 184 bytes after its header. -/
theorem C15_routing_and_frame_witness :
    (examine 1 otherPidPacket = .plain ∧
      demuxStep acceptAll 1 ⟨[0x00], 7⟩ otherPidPacket
        = .next ⟨[0x00] ++ otherPidPacket, 7⟩ []) ∧
    (∃ p, payload 0x47410010 (samplePacket 3 0x65) = .ret p ∧
      examine 1 (samplePacket 3 0x65) = pesVerdict 1 p) :=
  ⟨(C15_routing_and_frame acceptAll 1 ⟨[0x00], 7⟩ otherPidPacket 0x47010110 0x01 0x01 0x10 0xFF
      (by decide) (by decide) (by decide) (by decide) (by decide) (by decide) (by decide)
      (by decide)).2 (by decide),
    (C15_routing_and_frame acceptAll 1 ⟨[], 0⟩ (samplePacket 3 0x65) 0x47410010 0x41 0x00 0x10
      0x00 (by decide) (by decide) (by decide) (by decide) (by decide) (by decide) (by decide)
      (by decide)).1 (by decide)⟩

set_option maxRecDepth 100000 in
/-- C15 as stated fails: `fieldPacket 200` is a 188-byte packet with sync byte
`47` on PID 257 without payload-unit-start, so the PES parser is not called;
but its adaptation field declares 200 bytes, the slice `p[201:]` at line 79 is
out of range, and the pass panics before the packet is appended. -/
theorem C15_counterexample_long_field :
    (fieldPacket 200).length = 188 ∧ (fieldPacket 200)[0]? = some 0x47 ∧
    (fieldPacket 200)[1]? = some 0x01 ∧ (0x01 : Byte).val &&& 0x40 = 0 ∧
    (∀ sink fuel cur, demuxStep sink fuel cur (fieldPacket 200) = .stop .panic []) :=
  ⟨by decide, by decide, by decide, by decide, fun _ _ _ => rfl⟩

/-- C16 (as amended). For every 188-byte packet with sync byte `47`, one pass
of the loop of `Parse`, the calls of `parsePes`, `parsePesPtsDts` and `parseEs`
included, makes no out-of-range index or slice provided the declared lengths
stay inside the packet: the adaptation field, when present, declares at most
183 bytes, and, when the packet is routed to `parsePes`, the payload holds
every byte read from it (`PesInRange`). A declared length beyond the packet is
not reported as an error: with an adaptation field that declares 184 to 254
bytes the pass ends in a run-time panic. -/
theorem C16_packet_bounds (sink : Int → List Byte → Bool) (fuel : Nat)
    (cur : SegmentBuffer) (buf : List Byte) (header : Nat) (b1 b2 b3 L : Byte)
    (hlen : buf.length = 188) (h0 : buf[0]? = some 0x47) (h1 : buf[1]? = some b1)
    (h2 : buf[2]? = some b2) (h3 : buf[3]? = some b3) (h4 : buf[4]? = some L)
    (hh : Uint32 buf = .ret header) :
    ((b3.val &&& 0x20 ≠ 0 → L.val ≤ 183) →
      (b1.val &&& 0x40 ≠ 0 ∧ (b1.val &&& 0x1F) * 256 + b2.val = 256 →
        ∀ p, payload header buf = .ret p → PesInRange p) →
      ∀ out, demuxStep sink fuel cur buf ≠ .stop .panic out) ∧
    (b3.val &&& 0x20 ≠ 0 → 184 ≤ L.val → L.val ≤ 254 →
      demuxStep sink fuel cur buf = .stop .panic []) := by
  have he := examine_bytes fuel hlen h0 h1 h2 hh
  constructor
  · intro hfit hpes out
    obtain ⟨p, hp⟩ := payload_ret_of_fit hlen hh h3 h4 hfit
    refine demuxStep_no_panic cur ?_ out
    rw [he, hp]
    simp only [Run.orStop]
    split_ifs with hr
    · exact pesVerdict_no_panic fuel (hpes hr p hp)
    · simp
  · intro hf hL hL'
    refine demuxStep_stop cur ?_
    rw [he, (payload_bytes hlen hh h3 h4).2.1 hf hL hL']
    rfl

set_option maxRecDepth 100000 in
/-- C16, witness: the pass on `samplePacket 3 65`, whose 184-byte payload holds
the PES header, the PTS field and the elementary stream, does not panic. -/
theorem C16_packet_bounds_witness :
    demuxStep acceptAll 1 ⟨[], 0⟩ (samplePacket 3 0x65) ≠ .stop .panic [] :=
  (C16_packet_bounds acceptAll 1 ⟨[], 0⟩ (samplePacket 3 0x65) 0x47410010 0x41 0x00 0x10 0x00
    (by decide) (by decide) (by decide) (by decide) (by decide) (by decide) (by decide)).1
    (by decide)
    (fun _ p hp => by
      have e : p = (samplePacket 3 0x65).drop 4 := by
        have h : payload 0x47410010 (samplePacket 3 0x65)
            = .ret ((samplePacket 3 0x65).drop 4) := by decide
        rw [h] at hp
        exact (Run.ret.inj hp).symm
      subst e
      exact ⟨by decide, fun _ => ⟨by decide, fun _ _ _ => by decide, fun _ _ _ => by decide,
        fun hl h8 => by
          have e8 : hl = 0x05 := by
            have h : ((samplePacket 3 0x65).drop 4)[8]? = some 0x05 := by decide
            rw [h] at h8
            exact (Option.some.inj h8).symm
          subst e8
          decide⟩⟩) []

set_option maxRecDepth 100000 in
/-- C16 as stated fails: the 188-byte packets `fieldPacket 200` (adaptation
field of declared length 200) and `adaptedPacket 169 pesLongHeader` (PES header
of declared length 200 in a 14-byte payload) both begin with `47`, and on each
the pass ends in a run-time panic, not in a returned error. -/
theorem C16_counterexample_declared_lengths :
    (fieldPacket 200).length = 188 ∧ (fieldPacket 200)[0]? = some 0x47 ∧
    (∀ sink fuel cur, demuxStep sink fuel cur (fieldPacket 200) = .stop .panic []) ∧
    (adaptedPacket 169 pesLongHeader).length = 188 ∧
    (adaptedPacket 169 pesLongHeader)[0]? = some 0x47 ∧
    (∀ sink fuel cur,
      demuxStep sink fuel cur (adaptedPacket 169 pesLongHeader) = .stop .panic []) :=
  ⟨by decide, by decide, fun _ _ _ => rfl, by decide, by decide, fun _ _ _ => rfl⟩

/-- On `esDelimiterOnly` the first pass matches the start code and stops on the
type byte `09` at offset 3; no later pass moves `pos`. -/
theorem parseEs_delimiter_only (fuel : Nat) : parseEs fuel esDelimiterOnly = .spin := by
  cases fuel with
  | zero => rfl
  | succ f =>
    have h : parseEs (f + 1) esDelimiterOnly = parseEsLoop esDelimiterOnly f 3 := rfl
    rw [h]
    exact parseEsLoop_spin (by decide) (b := 0x09) (by decide) (by decide) f

set_option maxRecDepth 100000 in
theorem examine_delimiter_only (fuel : Nat) :
    examine fuel (adaptedPacket 169 (pesHeaderOnly ++ esDelimiterOnly)) = .stop .spin := by
  have hp : payload 0x47410030 (adaptedPacket 169 (pesHeaderOnly ++ esDelimiterOnly))
      = .ret (pesHeaderOnly ++ esDelimiterOnly) := by decide
  rw [@examine_bytes fuel _ 0x47410030 0x41 0x00 (by decide) (by decide) (by decide)
    (by decide) (by decide), hp]
  simp only [Run.orStop]
  rw [if_pos (by decide), pesVerdict]
  have hpes : parsePes fuel (pesHeaderOnly ++ esDelimiterOnly) = .spin := by
    have e : pesHeaderOnly ++ esDelimiterOnly
        = 0x00 :: 0x00 :: 0x01 :: 0xE0 :: 0x00 :: 0x00 :: 0x00 :: 0x00 :: 0x00
          :: esDelimiterOnly := rfl
    rw [e, parsePes_header]
    have hs : sliceFrom esDelimiterOnly (0x00 : Byte).val = .ret esDelimiterOnly := by decide
    rw [if_neg (by decide), if_neg (by decide), Run.bind_ret, Run.bind_ret, hs, Run.bind_ret,
      parseEs_delimiter_only, Run.bind_spin]
  rw [hpes]
  rfl

set_option maxRecDepth 100000 in
/-- C17, the code on a unit that starts in the last bytes of the range: on
`esDelimiterOnly` (`00 00 01 09 F0`) the first pass of `parseEs` matches the
start code, sets `pos = 3` and finds type 9; from then on the inner loop does
not run (`3 < len - 4` fails), `pos` stays 3 and the same byte is read again:
the call never returns. The same holds for the one-byte range `00`. The packet
`adaptedPacket 169 (pesHeaderOnly ++ esDelimiterOnly)` makes `Parse` hang. -/
theorem C17_scanner_does_not_return :
    (∀ fuel, parseEs fuel esDelimiterOnly = .spin) ∧
    scanLoop esDelimiterOnly (esDelimiterOnly.length - 4 - 0) 0 = .hit 3 ∧
    scanLoop esDelimiterOnly (esDelimiterOnly.length - 4 - 3) 3 = .through ∧
    (∀ fuel, parseEs fuel [0x00] = .spin) ∧
    (adaptedPacket 169 (pesHeaderOnly ++ esDelimiterOnly)).length = 188 ∧
    (∀ sink fuel cur,
      demuxStep sink fuel cur (adaptedPacket 169 (pesHeaderOnly ++ esDelimiterOnly))
        = .stop .spin []) ∧
    (∀ sink fuel,
      (Parse sink fuel (adaptedPacket 169 (pesHeaderOnly ++ esDelimiterOnly))).exit = .spin) := by
  refine ⟨parseEs_delimiter_only, by decide, by decide,
    parseEsLoop_spin (by decide) (b := 0x00) (by decide) (by decide), by decide,
    fun sink fuel cur => demuxStep_stop cur (examine_delimiter_only fuel), fun sink fuel => ?_⟩
  have h := Parse_packets sink fuel [adaptedPacket 169 (pesHeaderOnly ++ esDelimiterOnly)] []
    (by decide) (by decide)
  simp only [List.flatten_cons, List.flatten_nil, List.append_nil] at h
  rw [h]
  simp only [advance, demuxStep_stop _ (examine_delimiter_only fuel)]

/-- While the active segment has a non-zero `Pts` and no key frame carries the
timestamp 0, every key frame makes one flush. -/
theorem advance_flush_count {sink : Int → List Byte → Bool} {fuel : Nat} :
    ∀ (ps : List (List Byte)) (cur c : SegmentBuffer) (o : List FlushEvent),
      cur.Pts ≠ 0 → (∀ p ∈ ps, examine fuel p ≠ .key 0) →
      advance sink fuel ps cur = .next c o →
      o.length = ps.countP (isKeyFrame fuel) := by
  intro ps
  induction ps with
  | nil =>
    intro cur c o _ _ h
    simp only [advance, StepResult.next.injEq] at h
    simp [← h.2]
  | cons p ps ih =>
    intro cur c o hcur hpts h
    obtain ⟨c1, o1, o2, hd, ha, rfl⟩ := advance_cons_next h
    have hps : ∀ q ∈ ps, examine fuel q ≠ .key 0 := fun q hq => hpts q (List.mem_cons_of_mem p hq)
    cases hv : examine fuel p with
    | stop e => rw [demuxStep_stop cur hv] at hd; simp at hd
    | plain =>
      rw [demuxStep_plain cur hv] at hd
      simp only [StepResult.next.injEq] at hd
      obtain ⟨rfl, rfl⟩ := hd
      have := ih ⟨cur.buf ++ p, cur.Pts⟩ c o2 hcur hps ha
      simp [List.countP_cons, isKeyFrame, hv, this]
    | key t =>
      have ht : t ≠ 0 := fun h0 => hpts p (List.mem_cons_self p ps) (h0 ▸ hv)
      cases hs : sink cur.Pts cur.buf with
      | false => rw [demuxStep_key_write_error hv hcur hs] at hd; simp at hd
      | true =>
        rw [demuxStep_key_flush hv hcur hs] at hd
        simp only [StepResult.next.injEq] at hd
        obtain ⟨rfl, rfl⟩ := hd
        have := ih ⟨p, t⟩ c o2 ht hps ha
        simp [List.countP_cons, isKeyFrame, hv, this]

/-- C18. For every input of whole 188-byte packets that `Parse` processes to
end-of-stream, whose first packet is detected as a key frame and in which no
detected key frame has PTS 0, the concatenation in flush order of the bytes of
all flushed segments equals the input, and the number of calls of `Flush`
equals the number of packets detected as key frames. -/
theorem C18_lossless_segmentation (sink : Int → List Byte → Bool) (fuel : Nat)
    (p0 : List Byte) (rest : List (List Byte)) (t0 : Int)
    (hlen : ∀ p ∈ p0 :: rest, p.length = 188)
    (heof : (Parse sink fuel (p0 :: rest).flatten).exit = .ret .EOF)
    (hfirst : examine fuel p0 = .key t0)
    (hpts : ∀ p ∈ p0 :: rest, examine fuel p ≠ .key 0) :
    ((Parse sink fuel (p0 :: rest).flatten).flushes.map FlushEvent.bytes).flatten
      = (p0 :: rest).flatten ∧
    (Parse sink fuel (p0 :: rest).flatten).flushes.length
      = (p0 :: rest).countP (isKeyFrame fuel) := by
  obtain ⟨cur, out, ha, hP⟩ := Parse_eof hlen heof
  rw [hP]
  have ht0 : t0 ≠ 0 := fun h0 => hpts p0 (List.mem_cons_self p0 rest) (h0 ▸ hfirst)
  have hrest : ∀ q ∈ rest, examine fuel q ≠ .key 0 :=
    fun q hq => hpts q (List.mem_cons_of_mem p0 hq)
  obtain ⟨c1, o1, o2, hd, ha2, rfl⟩ := advance_cons_next ha
  rw [demuxStep_key_first hfirst rfl] at hd
  simp only [StepResult.next.injEq] at hd
  obtain ⟨rfl, rfl⟩ := hd
  obtain ⟨h1, -⟩ := advance_lossless rest _ cur o2 ht0 hrest ha2
  have h2 := advance_flush_count rest _ cur o2 ht0 hrest ha2
  constructor
  · simp only [List.nil_append, List.map_append, List.map_cons, List.map_nil,
      List.flatten_append, List.flatten_cons, List.flatten_nil, List.append_nil, Flush]
    exact h1
  · simp [List.countP_cons, isKeyFrame, hfirst, h2]

set_option maxRecDepth 100000 in
/-- C18, witness: a key frame, a packet of another PID and a second key frame
come back whole in two flushes, one per key frame. -/
theorem C18_lossless_segmentation_witness :
    ((Parse acceptAll 1 (samplePacket 3 0x65 :: [otherPidPacket, samplePacket 5 0x65]).flatten
        ).flushes.map FlushEvent.bytes).flatten
      = (samplePacket 3 0x65 :: [otherPidPacket, samplePacket 5 0x65]).flatten ∧
    (Parse acceptAll 1 (samplePacket 3 0x65 :: [otherPidPacket, samplePacket 5 0x65]).flatten
        ).flushes.length
      = (samplePacket 3 0x65 :: [otherPidPacket, samplePacket 5 0x65]).countP (isKeyFrame 1) ∧
    (samplePacket 3 0x65 :: [otherPidPacket, samplePacket 5 0x65]).countP (isKeyFrame 1) = 2 :=
  have h := C18_lossless_segmentation acceptAll 1 (samplePacket 3 0x65)
    [otherPidPacket, samplePacket 5 0x65] 1 (by decide) (by decide) (by decide) (by decide)
  ⟨h.1, h.2, by decide⟩

/-- A match of the inner loop ends just after a 3-byte start code (the last
three bytes of a 4-byte one) and leaves `pos` inside the range. -/
theorem scanLoop_hit_start_code (es : List Byte) :
    ∀ (n i p : Nat), (n ≠ 0 → i + n + 4 ≤ es.length) → scanLoop es n i = .hit p →
      ∃ j, StartCodeAt es j ∧ p = j + 3 ∧ p < es.length := by
  intro n
  induction n with
  | zero => intro i p _ h; simp [scanLoop] at h
  | succ n ih =>
    intro i p hb h
    have hb := hb (Nat.succ_ne_zero n)
    rw [scanLoop_succ n (by omega)] at h
    split_ifs at h with h3 h4 hm
    · simp only [Scan.hit.injEq] at h
      exact ⟨i, h3, h.symm, by omega⟩
    · simp only [Scan.hit.injEq] at h
      exact ⟨i + 1, h4.startCodeAt_succ, by omega, by omega⟩
    · exact ih (i + 1) p (fun _ => by omega) h

/-- An inner loop that runs at all does not end by its condition: every pass
matches, returns false, or leaves at least two more passes. -/
theorem scanLoop_not_through (es : List Byte) :
    ∀ (n i : Nat), i + (n + 1) + 4 = es.length → scanLoop es (n + 1) i ≠ .through := by
  intro n
  induction n with
  | zero =>
    intro i h
    rw [scanLoop_succ 0 (by omega)]
    split_ifs with h3 h4 hm
    · simp
    · simp
    · simp
    · omega
  | succ n ih =>
    intro i h
    rw [scanLoop_succ (n + 1) (by omega)]
    split_ifs with h3 h4 hm
    · simp
    · simp
    · simp
    · exact ih (i + 1) (by omega)

/-- The outer loop returns true only on the byte after a start code: entered
at a position where the inner loop runs, or on a byte already found not to be
an IDR type. -/
theorem parseEsLoop_true (es : List Byte) :
    ∀ (fuel pos : Nat),
      (pos + 4 < es.length ∨ ∃ b, es[pos]? = some b ∧ b.val &&& 0x1F ≠ 5) →
      parseEsLoop es fuel pos = .ret true →
      ∃ j, j + 3 < es.length ∧ StartCodeAt es j ∧
        ∃ b, es[j + 3]? = some b ∧ b.val &&& 0x1F = 5 := by
  intro fuel
  induction fuel with
  | zero => intro pos _ h; simp [parseEsLoop] at h
  | succ f ih =>
    intro pos hinv h
    rw [parseEsLoop] at h
    cases hs : scanLoop es (es.length - 4 - pos) pos with
    | fault => rw [hs] at h; simp at h
    | miss => rw [hs] at h; simp at h
    | hit p =>
      rw [hs] at h
      obtain ⟨j, hj, hp, hlt⟩ := scanLoop_hit_start_code es _ pos p (fun _ => by omega) hs
      simp only [index_of_lt hlt, Run.bind_ret] at h
      split_ifs at h with h5
      · refine ⟨j, by omega, hj, es.get ⟨p, hlt⟩, ?_, h5⟩
        rw [← hp]
        exact List.getElem?_eq_getElem hlt
      · exact ih p (Or.inr ⟨es.get ⟨p, hlt⟩, List.getElem?_eq_getElem hlt, h5⟩) h
    | through =>
      rw [hs] at h
      have hn : es.length - 4 - pos = 0 := by
        by_contra hne
        obtain ⟨n, hn⟩ : ∃ n, es.length - 4 - pos = n + 1 := ⟨es.length - 4 - pos - 1, by omega⟩
        rw [hn] at hs
        exact scanLoop_not_through es n pos (by omega) hs
      rcases hinv with hroom | ⟨b, hb, h5⟩
      · omega
      · simp only [index, hb, Run.bind_ret] at h
        rw [if_neg h5] at h
        exact ih pos (Or.inr ⟨b, hb, h5⟩) h

/-- C19. For every byte range `es` of at least 5 bytes, if `parseEs` returns
true then `es` holds a start code followed at once by an IDR type byte: there
is an offset `j` with `j + 3 < len(es)`, `es[j] = 00`, `es[j+1] = 00`,
`es[j+2] = 01` and `es[j+3] & 0x1F = 5`. -/
theorem C19_key_frame_detection_sound (fuel : Nat) (es : List Byte) (hlen : 5 ≤ es.length)
    (h : parseEs fuel es = .ret true) :
    ∃ j, j + 3 < es.length ∧ es[j]? = some 0x00 ∧ es[j + 1]? = some 0x00 ∧
      es[j + 2]? = some 0x01 ∧ ∃ b, es[j + 3]? = some b ∧ b.val &&& 0x1F = 5 := by
  obtain ⟨j, hj, hsc, hb⟩ := parseEsLoop_true es fuel 0 (Or.inl (by omega)) h
  exact ⟨j, hj, hsc.1, hsc.2.1, hsc.2.2, hb⟩

/-- C19, witness: `esSpsThenIdr` is reported as a key frame, and it holds a
start code followed by an IDR type byte. -/
theorem C19_key_frame_detection_sound_witness :
    parseEs 2 esSpsThenIdr = .ret true ∧
    ∃ j, j + 3 < esSpsThenIdr.length ∧ esSpsThenIdr[j]? = some 0x00 ∧
      esSpsThenIdr[j + 1]? = some 0x00 ∧ esSpsThenIdr[j + 2]? = some 0x01 ∧
      ∃ b, esSpsThenIdr[j + 3]? = some b ∧ b.val &&& 0x1F = 5 :=
  ⟨by decide, C19_key_frame_detection_sound 2 esSpsThenIdr (by decide) (by decide)⟩

/-- C20. For every `t` below `2^33`: every 5-byte field packed from `t` in the
standard way, with any 4-bit value `n` in the high bits of byte 0 and any
marker bits `m0`, `m1`, `m2`, is decoded by `parsePesPtsDts` to exactly `t`;
and such a field exists, so the decoder reaches every 33-bit value. -/
theorem C20_pts_decode_inverts_packing (t : Nat) (ht : t < 2 ^ 33) :
    (∀ (n m0 m1 m2 : Nat) (b0 b1 b2 b3 b4 : Byte) (rest : List Byte),
      n < 16 → m0 ≤ 1 → m1 ≤ 1 → m2 ≤ 1 →
      b0.val = n * 16 + (t / 2 ^ 30 % 8) * 2 + m0 →
      b1.val * 256 + b2.val = (t / 2 ^ 15 % 2 ^ 15) * 2 + m1 →
      b3.val * 256 + b4.val = (t % 2 ^ 15) * 2 + m2 →
      parsePesPtsDts (b0 :: b1 :: b2 :: b3 :: b4 :: rest) = .ret (t : Int)) ∧
    (∃ b0 b1 b2 b3 b4 : Byte, parsePesPtsDts [b0, b1, b2, b3, b4] = .ret (t : Int)) := by
  have main : ∀ (n m0 m1 m2 : Nat) (b0 b1 b2 b3 b4 : Byte) (rest : List Byte),
      n < 16 → m0 ≤ 1 → m1 ≤ 1 → m2 ≤ 1 →
      b0.val = n * 16 + (t / 2 ^ 30 % 8) * 2 + m0 →
      b1.val * 256 + b2.val = (t / 2 ^ 15 % 2 ^ 15) * 2 + m1 →
      b3.val * 256 + b4.val = (t % 2 ^ 15) * 2 + m2 →
      parsePesPtsDts (b0 :: b1 :: b2 :: b3 :: b4 :: rest) = .ret (t : Int) := by
    intro n m0 m1 m2 b0 b1 b2 b3 b4 rest hn hm0 hm1 hm2 h0 h12 h34
    have key : (b0.val / 2 % 8) * 2 ^ 30 + ((b1.val * 256 + b2.val) / 2) * 2 ^ 15
        + (b3.val * 256 + b4.val) / 2 = t := by
      rw [h0, h12, h34]
      omega
    rw [parsePesPtsDts_cons, key]
  refine ⟨main, ?_⟩
  refine ⟨⟨(t / 2 ^ 30 % 8) * 2, by omega⟩, ⟨(t / 2 ^ 15 % 2 ^ 15) * 2 / 256, by omega⟩,
    ⟨(t / 2 ^ 15 % 2 ^ 15) * 2 % 256, by omega⟩, ⟨(t % 2 ^ 15) * 2 / 256, by omega⟩,
    ⟨(t % 2 ^ 15) * 2 % 256, by omega⟩, ?_⟩
  refine main 0 0 0 0 _ _ _ _ _ [] (by omega) (by omega) (by omega) (by omega) ?_ ?_ ?_
  · simp
  · show (t / 2 ^ 15 % 2 ^ 15) * 2 / 256 * 256 + (t / 2 ^ 15 % 2 ^ 15) * 2 % 256 = _
    omega
  · show (t % 2 ^ 15) * 2 / 256 * 256 + (t % 2 ^ 15) * 2 % 256 = _
    omega

/-- C20, witness: the timestamp 123456789 packed with prefix `0010` and all
marker bits set, `21 1D 6F 9A 2B`, decodes to 123456789. -/
theorem C20_pts_decode_inverts_packing_witness :
    parsePesPtsDts [0x21, 0x1D, 0x6F, 0x9A, 0x2B] = .ret (123456789 : Int) :=
  (C20_pts_decode_inverts_packing 123456789 (by decide)).1 2 1 1 1 0x21 0x1D 0x6F 0x9A 0x2B []
    (by decide) (by decide) (by decide) (by decide) (by decide) (by decide) (by decide)

end MpegTS
